import Mathlib

/-
  Verification of the FluxDB core of dfuse-eosio (Go), shallowly embedded in Lean 4.

  Machine integers (uint32, uint64) are modelled as `Nat` with explicit
  `% 2 ^ 32` / `% 2 ^ 64` where the Go code can overflow.  Byte buffers are
  `List Nat` whose entries are below 256.  Go functions returning `(T, error)`
  become `Except String T` or `Option T`.  Go maps whose iteration order is
  relevant are modelled as association lists.
-/

/-! ### Hexadecimal formatting and parsing

The Go code formats block numbers with `fmt.Sprintf("%08x", n)` (lowercase,
zero padded) and primary keys with `"%016x"` / `"%02x"`, and parses them back
with `strconv.ParseUint(s, 16, bits)`. -/

def hexDigitChar (d : Nat) : Char :=
  if d = 0 then '0' else if d = 1 then '1' else if d = 2 then '2'
  else if d = 3 then '3' else if d = 4 then '4' else if d = 5 then '5'
  else if d = 6 then '6' else if d = 7 then '7' else if d = 8 then '8'
  else if d = 9 then '9' else if d = 10 then 'a' else if d = 11 then 'b'
  else if d = 12 then 'c' else if d = 13 then 'd' else if d = 14 then 'e'
  else 'f'

/-- Fixed-width lowercase hex rendering, matching Go's `fmt.Sprintf("%0wx", n)`
for values that fit in `w` digits (all call sites pass uint32/uint64 values). -/
def hexFixed : Nat → Nat → List Char
  | 0, _ => []
  | w + 1, n => hexDigitChar (n / 16 ^ w % 16) :: hexFixed w (n % 16 ^ w)

/-- `HexBlockNum` from fluxdb: 8 lowercase hex digits of a uint32 block num. -/
def HexBlockNum (blockNum : Nat) : List Char :=
  hexFixed 8 blockNum

/-- `HexRevBlockNum` from fluxdb: 8 lowercase hex digits of
`0xFFFFFFFF - blockNum`, so that larger block nums sort earlier. -/
def HexRevBlockNum (blockNum : Nat) : List Char :=
  hexFixed 8 (0xFFFFFFFF - blockNum)

/-- Value of one hex digit character, accepting both cases as Go's
`strconv.ParseUint` does with base 16. -/
def hexDigitVal (c : Char) : Option Nat :=
  if '0' ≤ c ∧ c ≤ '9' then some (c.toNat - '0'.toNat)
  else if 'a' ≤ c ∧ c ≤ 'f' then some (c.toNat - 'a'.toNat + 10)
  else if 'A' ≤ c ∧ c ≤ 'F' then some (c.toNat - 'A'.toNat + 10)
  else none

def parseHexChars : List Char → Nat → Option Nat
  | [], acc => some acc
  | c :: rest, acc =>
    match hexDigitVal c with
    | none => none
    | some d => parseHexChars rest (acc * 16 + d)

/-- Go's `strconv.ParseUint(s, 16, bitSize)`: empty strings and strings with a
non-hex character are rejected, as are values that do not fit in `bitSize`
bits. -/
def parseUintHex (s : List Char) (bitSize : Nat) : Option Nat :=
  if s = [] then none
  else match parseHexChars s 0 with
    | none => none
    | some v => if v < 2 ^ bitSize then some v else none

/-! ### Big-endian byte encoding

The fluxdb package does all of its fixed-width persisted-layout encoding
through a package-level `big` endianness value; its definition lives outside
the provided sources. Modelled from the spec: the persisted layout section
declares the index blob block nums `u32 be` and payer names `u64 be`, so
`big` is big-endian byte order. -/

def bigPutUint32 (n : Nat) : List Nat :=
  [n / 2 ^ 24 % 256, n / 2 ^ 16 % 256, n / 2 ^ 8 % 256, n % 256]

def bigPutUint64 (n : Nat) : List Nat :=
  [n / 2 ^ 56 % 256, n / 2 ^ 48 % 256, n / 2 ^ 40 % 256, n / 2 ^ 32 % 256,
   n / 2 ^ 24 % 256, n / 2 ^ 16 % 256, n / 2 ^ 8 % 256, n % 256]

/-- `big.Uint32(buffer)`: reads the first four bytes, big-endian. -/
def bigUint32 (bytes : List Nat) : Nat :=
  match bytes with
  | b0 :: b1 :: b2 :: b3 :: _ => b0 * 2 ^ 24 + b1 * 2 ^ 16 + b2 * 2 ^ 8 + b3
  | _ => 0

/-- `big.Uint64(buffer)`: reads the first eight bytes, big-endian. -/
def bigUint64 (bytes : List Nat) : Nat :=
  match bytes with
  | b0 :: b1 :: b2 :: b3 :: b4 :: b5 :: b6 :: b7 :: _ =>
    b0 * 2 ^ 56 + b1 * 2 ^ 48 + b2 * 2 ^ 40 + b3 * 2 ^ 32 +
    b4 * 2 ^ 24 + b5 * 2 ^ 16 + b6 * 2 ^ 8 + b7
  | _ => 0

/-! ### Index manager scheduling (indexing.go, `indexCache.shouldTriggerIndexing`) -/

/-- The per-tablet state `shouldTriggerIndexing` consults: the mutation counter
`lastCounters[table]` and the optionally cached snapshot `lastIndexes[table]`,
of which only the map size matters here. -/
def shouldTriggerIndexing (mutatedRowsCount : Nat) (lastIndexMapSize : Option Nat) : Bool :=
  if mutatedRowsCount < 1000 then false
  else match lastIndexMapSize with
    | none => true
    | some tableRowsCount =>
      if tableRowsCount > 50000 ∧ mutatedRowsCount < 5000 then false
      else if tableRowsCount > 100000 ∧ mutatedRowsCount < 10000 then false
      else true

/-! ### Front-end read preparation (grpc/read.go and server/read.go, `prepareRead`)

Both the gRPC and the HTTP servers carry the same `prepareRead` body.  The
database collaborators (`FetchLastWrittenBlock`, `HeadBlock`,
`SpeculativeWritesFetcher`) are abstracted as inputs: the last written (LIB)
block num, the head block num, and a pure fetch function from chosen block num
to the speculative write list. -/

structure WriteRequestRef where
  blockID : List Nat
  blockNum : Nat
  deriving Repr, DecidableEq

inductive ReadPrepError where
  | blockNumHigherThanLIB (requested lib : Nat)
  | blockNumHigherThanHead (requested head lib : Nat)
  deriving Repr, DecidableEq

structure PreparedRead where
  chosenBlockNum : Nat
  speculativeWrites : List WriteRequestRef
  deriving Repr, DecidableEq

/-- `prepareRead` as written in both read.go files.  In the Go source
`chosenBlockNum` is a named (zero-initialized) return value; inside the
`irreversibleOnly` branch it is still zero when the `if chosenBlockNum == 0`
test runs, because no assignment from `blockNum` precedes it. -/
def prepareRead (lastWrittenBlockNum headBlockNum : Nat)
    (fetchSpeculative : Nat → List WriteRequestRef)
    (blockNum : Nat) (irreversibleOnly : Bool) :
    Except ReadPrepError PreparedRead :=
  if irreversibleOnly then
    if blockNum > lastWrittenBlockNum then
      .error (.blockNumHigherThanLIB blockNum lastWrittenBlockNum)
    else
      -- chosenBlockNum is the zero-initialized named return here
      let chosenBlockNum := if (0 : Nat) = 0 then lastWrittenBlockNum else 0
      .ok { chosenBlockNum := chosenBlockNum, speculativeWrites := [] }
  else
    let chosenBlockNum := if blockNum = 0 then headBlockNum else blockNum
    if chosenBlockNum > headBlockNum then
      .error (.blockNumHigherThanHead chosenBlockNum headBlockNum lastWrittenBlockNum)
    else
      .ok { chosenBlockNum := chosenBlockNum,
            speculativeWrites := fetchSpeculative chosenBlockNum }

/-! ### EOS name codec (eos-go library)

`NA`/`NameToString` in fluxdb delegate to the eos-go base32 name codec
(`StringToName` / `NameToString`): 13 symbols drawn from
`.12345a-z`, the first twelve packed as 5 bits each from the top of a uint64,
the last as the low 4 bits; decoding trims trailing dots. -/

def charToSymbol (c : Char) : Nat :=
  if 'a' ≤ c ∧ c ≤ 'z' then c.toNat - 'a'.toNat + 6
  else if '1' ≤ c ∧ c ≤ '5' then c.toNat - '1'.toNat + 1
  else 0

/-- eos-go `StringToName`: out-of-range positions contribute symbol 0, exactly
as reading `s[i]` is skipped in the Go loop ('.' is the zero symbol). -/
def stringToName (s : List Char) : Nat :=
  (List.range 13).foldl
    (fun val i =>
      let c := charToSymbol (s.getD i '.')
      if i < 12 then val ||| ((c % 32) <<< (64 - 5 * (i + 1)))
      else val ||| (c % 16))
    0

/-- fluxdb `NA`: name string to uint64. -/
def NA (s : List Char) : Nat := stringToName s

def base32Alphabet : List Char := ".12345abcdefghijklmnopqrstuvwxyz".data

def trimRightDots (s : List Char) : List Char :=
  (s.reverse.dropWhile (fun c => c = '.')).reverse

/-- eos-go `NameToString`: the Go loop fills `a[12-i]` from the low bits of the
value shifted right 4 bits once then 5 bits per step; position `j` therefore
holds symbol `val / (16 * 32 ^ (11 - j)) % 32` for `j < 12` and `val % 16` at
`j = 12`. -/
def NameToString (val : Nat) : List Char :=
  trimRightDots ((List.range 13).map (fun j =>
    if j = 12 then base32Alphabet.getD (val % 16) '.'
    else base32Alphabet.getD (val / (16 * 32 ^ (11 - j)) % 32) '.'))

/-! ### Tablet rows (tablet_contract_state.go and the contract table scope tablet) -/

structure TabletRow where
  collection : String
  tabletKey : String
  blockNumKey : List Char
  primKey : String
  payload : List Nat
  deriving Repr, DecidableEq

def isErr {ε α : Type} (e : Except ε α) : Bool :=
  match e with
  | .error _ => true
  | .ok _ => false

/-- `strings.Split` on a single separator character (structural recursion so
that concrete keys evaluate definitionally). -/
def splitChar (sep : Char) : List Char → List (List Char)
  | [] => [[]]
  | c :: rest =>
    if c = sep then [] :: splitChar sep rest
    else match splitChar sep rest with
      | [] => [[c]]
      | h :: t => (c :: h) :: t

/-- Modelled from the spec: `ExplodeTabletRowKey` (fluxdb types, not among the
provided sources) splits a row key `<collection>/<tablet_parts>/<hex_block>/<primary_key>`
on `/`, yielding the collection, the tablet key (collection plus parts), the
block-num key and the primary key, and fails on any other shape. -/
def ExplodeTabletRowKey (key : String) :
    Except String (String × String × String × String) :=
  match splitChar '/' key.data with
  | [collection, tabletParts, blockNumKey, primaryKey] =>
    .ok (String.mk collection, String.mk (collection ++ '/' :: tabletParts),
         String.mk blockNumKey, String.mk primaryKey)
  | _ => .error ("unable to explode tablet row key " ++ key)

def NewContractStateTablet (contract scope table : String) : String :=
  "cst" ++ "/" ++ contract ++ ":" ++ scope ++ ":" ++ table

namespace ContractStateTablet

/-- `ContractStateTablet.NewRow`: a deletion row keeps a nil payload; otherwise
the payload is the payer name as 8 big-endian bytes followed by the row data. -/
def NewRow (t : String) (blockNum : Nat) (primaryKey payer : String)
    (data : List Nat) (isDeletion : Bool) : TabletRow :=
  { collection := "cst"
    tabletKey := t
    blockNumKey := HexBlockNum blockNum
    primKey := primaryKey
    payload :=
      if isDeletion then []
      else bigPutUint64 (NA payer.data) ++ data }

/-- `ContractStateTablet.NewRowFromKV`: rejects values shorter than 8 bytes,
then explodes the key. -/
def NewRowFromKV (key : String) (value : List Nat) : Except String TabletRow :=
  if value.length < 8 then
    .error "contract state tablet row value should have at least 8 bytes (payer)"
  else
    match ExplodeTabletRowKey key with
    | .error e => .error ("unable to explode tablet row key: " ++ e)
    | .ok (_, tabletKey, blockNumKey, primaryKey) =>
      .ok { collection := "cst"
            tabletKey := tabletKey
            blockNumKey := blockNumKey.data
            primKey := primaryKey
            payload := value }

end ContractStateTablet

/-- `ContractStateRow.Payer`. -/
def ContractStateRow.Payer (r : TabletRow) : List Char :=
  NameToString (bigUint64 r.payload)

/-- `ContractStateRow.Data`. -/
def ContractStateRow.Data (r : TabletRow) : List Nat :=
  r.payload.drop 8

def NewContractTableScopeTablet (contract table : String) : String :=
  "ctbls" ++ "/" ++ contract ++ ":" ++ table

namespace ContractTableScopeTablet

/-- `ContractTableScopeTablet.NewRow`: empty payload on deletion, otherwise the
payer name as 8 big-endian bytes. -/
def NewRow (t : String) (blockNum : Nat) (scope payer : String)
    (isDeletion : Bool) : TabletRow :=
  { collection := "ctbls"
    tabletKey := t
    blockNumKey := HexBlockNum blockNum
    primKey := scope
    payload := if isDeletion then [] else bigPutUint64 (NA payer.data) }

/-- `ContractTableScopeTablet.NewRowFromKV`, guard exactly as in the source:
`if len(value) == 0 || len(value) == 8` returns the error (whose message says
0 bytes or 8 bytes are the shapes it expects). -/
def NewRowFromKV (key : String) (value : List Nat) : Except String TabletRow :=
  if value.length = 0 ∨ value.length = 8 then
    .error "contract table scope row value should have at 0 byte (deletion) or 8 bytes (payer)"
  else
    match ExplodeTabletRowKey key with
    | .error e => .error ("unable to explode tablet row key: " ++ e)
    | .ok (_, tabletKey, blockNumKey, primaryKey) =>
      .ok { collection := "ctbls"
            tabletKey := tabletKey
            blockNumKey := blockNumKey.data
            primKey := primaryKey
            payload := value }

end ContractTableScopeTablet

/-! ### Table index serialization (indexing.go)

`TableIndex.Map` is a Go `map[string]uint32`; it is modelled as an association
list (the marshalling loop iterates it in some order, which the list fixes),
with `listMapSet` giving the map-assignment semantics used when decoding. -/

structure TableIndex where
  AtBlockNum : Nat
  Squelched : Nat
  Map : List (String × Nat)
  deriving Repr, DecidableEq

def NewTableIndex : TableIndex :=
  { AtBlockNum := 0, Squelched := 0, Map := [] }

/-- Go map assignment `m[k] = v` over an association list: replace in place if
the key is present, append otherwise. -/
def listMapSet {α : Type} (m : List (String × α)) (k : String) (v : α) : List (String × α) :=
  if k ∈ m.map Prod.fst then
    m.map (fun p => if p.1 = k then (k, v) else p)
  else m ++ [(k, v)]

/-- Go `delete(m, k)` over an association list. -/
def listMapDelete {α : Type} (m : List (String × α)) (k : String) : List (String × α) :=
  m.filter (fun p => p.1 ≠ k)

/-- Go map lookup `m[k]` (with presence) over an association list. -/
def assocGet {α : Type} : List (String × α) → String → Option α
  | [], _ => none
  | p :: rest, k => if p.1 = k then some p.2 else assocGet rest k

def startsWithStr (s pre : String) : Bool :=
  pre.data.isPrefixOf s.data

/-- `indexPrimaryKeyByteCountByTableKey` from indexing.go (the `brl` arm
matches without the colon, as the source notes). -/
def indexPrimaryKeyByteCountByTableKey (tableKey : String) : Nat :=
  if startsWithStr tableKey "al:" then 16
  else if startsWithStr tableKey "arl:" then 1
  else if startsWithStr tableKey "brl" then 1
  else if startsWithStr tableKey "ka2:" then 16
  else if startsWithStr tableKey "td:" then 8
  else if startsWithStr tableKey "ts:" then 8
  else 0

/-- `readOneUint64`: 8 bytes big-endian, rendered `"%016x"`. -/
def readOneUint64 (buffer : List Nat) : Except String String :=
  if buffer.length < 8 then .error "not enough bytes to read uint64"
  else .ok (String.mk (hexFixed 16 (bigUint64 buffer)))

/-- `writeOneUint64`: parse the primary key as 16 hex digits and store the
value as 8 big-endian bytes (the writers return the bytes they would have
written into their fixed-width slice of the snapshot buffer). -/
def writeOneUint64 (primaryKey : String) : Except String (List Nat) :=
  match parseUintHex primaryKey.data 64 with
  | none => .error "unable to transform primary key to uint64"
  | some v => .ok (bigPutUint64 v)

/-- `oneBytePrimaryKeyReaderFactory` (tag dropped; it only feeds messages). -/
def oneBytePrimaryKeyReader (buffer : List Nat) : Except String String :=
  match buffer with
  | [] => .error "one byte primary key reader: not enough bytes to read"
  | b :: _ => .ok (String.mk (hexFixed 2 b))

def oneUint64PrimaryKeyReader (buffer : List Nat) : Except String String :=
  readOneUint64 buffer

def twoUint64PrimaryKeyReader (buffer : List Nat) : Except String String :=
  if buffer.length < 16 then .error "two uint64 primary key reader: not enough bytes to read"
  else
    match readOneUint64 buffer with
    | .error e => .error e
    | .ok chunk1 =>
      match readOneUint64 (buffer.drop 8) with
      | .error e => .error e
      | .ok chunk2 => .ok (String.mk (chunk1.data ++ ':' :: chunk2.data))

def oneBytePrimaryKeyWriter (primaryKey : String) : Except String (List Nat) :=
  match parseUintHex primaryKey.data 8 with
  | none => .error "one byte primary key writer: unable to transform primary key to byte"
  | some v => .ok [v]

def oneUint64PrimaryKeyWriter (primaryKey : String) : Except String (List Nat) :=
  writeOneUint64 primaryKey

def twoUint64PrimaryKeyWriter (primaryKey : String) : Except String (List Nat) :=
  match splitChar ':' primaryKey.data with
  | [chunk1, chunk2] =>
    match writeOneUint64 (String.mk chunk1) with
    | .error e => .error e
    | .ok b1 =>
      match writeOneUint64 (String.mk chunk2) with
      | .error e => .error e
      | .ok b2 => .ok (b1 ++ b2)
  | _ => .error "two uint64 primary key should have 2 chunks"

def indexPrimaryKeyReaderByTableKey (tableKey : String) :
    Option (List Nat → Except String String) :=
  if startsWithStr tableKey "al:" then some twoUint64PrimaryKeyReader
  else if startsWithStr tableKey "arl:" then some oneBytePrimaryKeyReader
  else if startsWithStr tableKey "brl" then some oneBytePrimaryKeyReader
  else if startsWithStr tableKey "ka2:" then some twoUint64PrimaryKeyReader
  else if startsWithStr tableKey "td:" then some oneUint64PrimaryKeyReader
  else if startsWithStr tableKey "ts:" then some oneUint64PrimaryKeyReader
  else none

def indexPrimaryKeyWriterByTableKey (tableKey : String) :
    Option (String → Except String (List Nat)) :=
  if startsWithStr tableKey "al:" then some twoUint64PrimaryKeyWriter
  else if startsWithStr tableKey "arl:" then some oneBytePrimaryKeyWriter
  else if startsWithStr tableKey "brl" then some oneBytePrimaryKeyWriter
  else if startsWithStr tableKey "ka2:" then some twoUint64PrimaryKeyWriter
  else if startsWithStr tableKey "td:" then some oneUint64PrimaryKeyWriter
  else if startsWithStr tableKey "ts:" then some oneUint64PrimaryKeyWriter
  else none

/-- The entry section of `MarshalBinary`: the Go loop writes, at successive
`pos` offsets, exactly `Pb` primary-key bytes then 4 block-num bytes per map
entry, tiling the pre-allocated buffer, which is the concatenation below. -/
def marshalEntries (writer : String → Except String (List Nat)) :
    List (String × Nat) → Except String (List Nat)
  | [] => .ok []
  | (pk, bn) :: rest =>
    match writer pk with
    | .error e => .error e
    | .ok pkBytes =>
      match marshalEntries writer rest with
      | .error e => .error e
      | .ok tail => .ok (pkBytes ++ bigPutUint32 bn ++ tail)

/-- `TableIndex.MarshalBinary`: 4 bytes of squelched count, 12 reserved zero
bytes, then the fixed-width entries. -/
def TableIndex.MarshalBinary (index : TableIndex) (tableKey : String) :
    Except String (List Nat) :=
  if indexPrimaryKeyByteCountByTableKey tableKey = 0 then
    .error "unknown primary key byte count for table key"
  else
    match indexPrimaryKeyWriterByTableKey tableKey with
    | none => .error "unknown primary key writer for table key"
    | some writer =>
      match marshalEntries writer index.Map with
      | .error e => .error e
      | .ok entries =>
        .ok (bigPutUint32 index.Squelched ++ List.replicate 12 0 ++ entries)

/-- The decode loop of `NewTableIndexFromBinary`, walking the buffer one
`Pb + 4`-byte entry at a time (only reached after the alignment check).  The
fuel argument bounds the iteration count by the buffer length and never runs
out, since every step consumes at least one byte. -/
def parseEntriesAux (Pb : Nat) (reader : List Nat → Except String String) :
    Nat → List Nat → Except String (List (String × Nat))
  | _, [] => .ok []
  | 0, _ :: _ => .error "table index entry decode loop ran out of fuel"
  | fuel + 1, b :: rest =>
    match reader (b :: rest) with
    | .error e => .error e
    | .ok pk =>
      match parseEntriesAux Pb reader fuel ((b :: rest).drop (Pb + 4)) with
      | .error e => .error e
      | .ok tail => .ok ((pk, bigUint32 ((b :: rest).drop Pb)) :: tail)

def parseEntries (Pb : Nat) (reader : List Nat → Except String String)
    (bytes : List Nat) : Except String (List (String × Nat)) :=
  parseEntriesAux Pb reader bytes.length bytes

def buildMap (entries : List (String × Nat)) : List (String × Nat) :=
  entries.foldl (fun m p => listMapSet m p.1 p.2) []

/-- `NewTableIndexFromBinary`: codec lookup, 16-byte-header plus alignment
check, then entry decoding into a fresh map. -/
def NewTableIndexFromBinary (tableKey : String) (atBlockNum : Nat)
    (buffer : List Nat) : Except String TableIndex :=
  if indexPrimaryKeyByteCountByTableKey tableKey = 0 then
    .error "unknown primary key byte count for table key"
  else
    let entryByteCount := indexPrimaryKeyByteCountByTableKey tableKey + 4
    if buffer.length < 16 ∨ (buffer.length - 16) % entryByteCount ≠ 0 then
      .error "unable to unmarshal table index: bytes alignment plus 16 bytes metadata is off"
    else
      match indexPrimaryKeyReaderByTableKey tableKey with
      | none => .error "unknown primary key writer for table key"
      | some reader =>
        match parseEntries (indexPrimaryKeyByteCountByTableKey tableKey)
          reader (buffer.drop 16) with
        | .error e => .error e
        | .ok entries =>
          .ok { AtBlockNum := atBlockNum
                Squelched := bigUint32 buffer
                Map := buildMap entries }

/-! ### Canonical primary keys and codec round trips

A primary key string is canonical for a codec when it is exactly what the
codec's reader would render: fixed-width lowercase hex (for the uint64 and
byte kinds), or two such chunks joined by a colon. -/

def canonHex (w : Nat) (s : List Char) : Bool :=
  match parseUintHex s (4 * w) with
  | some v => decide (s = hexFixed w v)
  | none => false

def canonTwo64 (s : List Char) : Bool :=
  match splitChar ':' s with
  | [c1, c2] => canonHex 16 c1 && canonHex 16 c2
  | _ => false

def canonicalPrimaryKey (tableKey pk : String) : Bool :=
  if startsWithStr tableKey "al:" then canonTwo64 pk.data
  else if startsWithStr tableKey "arl:" then canonHex 2 pk.data
  else if startsWithStr tableKey "brl" then canonHex 2 pk.data
  else if startsWithStr tableKey "ka2:" then canonTwo64 pk.data
  else if startsWithStr tableKey "td:" then canonHex 16 pk.data
  else if startsWithStr tableKey "ts:" then canonHex 16 pk.data
  else false

/-! ### Lexicographic byte-string order (the KV backend's key order) -/

def lexLt : List Char → List Char → Bool
  | [], [] => false
  | [], _ :: _ => true
  | _ :: _, [] => false
  | a :: as, b :: bs => if a < b then true else if b < a then false else lexLt as bs

def lexLe (x y : List Char) : Bool := lexLt x y || x == y

/-! ### KV store model (fluxdb/store is not among the provided sources)

Modelled from the spec: the backend is an ordered key-value store;
`Scan(start, end, cb)` delivers entries with `start <= key < end` in
lexicographic order, and `FetchIndex(tablet, prefix, start)` returns the
first entry with `key >= start` carrying the prefix. -/

structure StoreRow where
  key : List Char
  value : List Nat
  deriving Repr, DecidableEq

structure Store where
  tabletRows : List StoreRow
  indexRows : List StoreRow
  deriving Repr, DecidableEq

/-- Modelled from the spec: scan, inclusive start, exclusive end. -/
def ScanTabletRows (store : Store) (firstKey lastKey : List Char) : List StoreRow :=
  store.tabletRows.filter (fun r => lexLe firstKey r.key && lexLt r.key lastKey)

/-- Modelled from the spec: first index entry at or after `start` under the
prefix. -/
def FetchIndex (store : Store) (keyPre start : List Char) : Option StoreRow :=
  store.indexRows.find? (fun r => lexLe start r.key && keyPre.isPrefixOf r.key)

/-- Modelled from the spec: recover the block num from an index key
`<table_key>:<hex_rev_block_num>`. -/
def chunkKeyRevBlockNum (rowKey keyPre : List Char) : Except String Nat :=
  match parseUintHex ((rowKey.drop keyPre.length).take 8) 32 with
  | none => .error "could not parse reverse block num in index key"
  | some rev => .ok (0xFFFFFFFF - rev)

def joinColon : List (List Char) → List Char
  | [] => []
  | [x] => x
  | x :: xs => x ++ ':' :: joinColon xs

/-- Modelled from the spec: `explodeWritableRowKey` splits a writable row key
`<table_key>:<hex_block_num>:<primary_key>` on colons from the right (the
table key itself contains colons). -/
def explodeWritableRowKey (key : List Char) : Except String (List Char × Nat × List Char) :=
  match (splitChar ':' key).reverse with
  | primKey :: hexBlock :: c :: restRev =>
    match parseUintHex hexBlock 32 with
    | none => .error "could not parse block num in row key"
    | some bn => .ok (joinColon (c :: restRev).reverse, bn, primKey)
  | _ => .error "invalid writable row key"

/-- The row keys the write pipeline produces for a tablet (indexing.go builds
its scan boundaries the same way, `tableKey + ":" + HexBlockNum(n)`). -/
def rowKeyOf (tableKey : String) (bn : Nat) (pk : String) : List Char :=
  tableKey.data ++ ':' :: (HexBlockNum bn ++ ':' :: pk.data)

/-! ### The index build (indexing.go, `FluxDB.getIndex` and `FluxDB.IndexTables`) -/

/-- `FluxDB.getIndex`: fetch the latest persisted snapshot at or before
`blockNum` through the reverse-block-num index key, and decode it. -/
def getIndex (store : Store) (tableKey : String) (blockNum : Nat) :
    Except String (Option TableIndex) :=
  let keyPre := tableKey.data ++ [':']
  match FetchIndex store keyPre (keyPre ++ HexRevBlockNum blockNum) with
  | none => .ok none
  | some row =>
    match chunkKeyRevBlockNum row.key keyPre with
    | .error e => .error e
    | .ok indexBlockNum =>
      match NewTableIndexFromBinary tableKey indexBlockNum row.value with
      | .error e => .error e
      | .ok index => .ok (some index)

/-- The start index for one table of the `IndexTables` loop: the cached index
if the cache holds one, otherwise the latest persisted snapshot, otherwise a
fresh empty index. -/
def indexStartingPoint (cache : List (String × TableIndex)) (store : Store)
    (tableKey : String) (blockNum : Nat) : Except String TableIndex :=
  match assocGet cache tableKey with
  | some index => .ok index
  | none =>
    match getIndex store tableKey blockNum with
    | .error e => .error e
    | .ok (some index) => .ok index
    | .ok none => .ok NewTableIndex

/-- The scan callback of `IndexTables`: explode each row key, then assign the
block num under the primary key, or delete the key on an empty (tombstone)
value. -/
def applyRows (m : List (String × Nat)) : List StoreRow → Except String (List (String × Nat))
  | [] => .ok m
  | r :: rest =>
    match explodeWritableRowKey r.key with
    | .error e => .error e
    | .ok (_, bn, primKeyChars) =>
      applyRows
        (if r.value.length = 0 then listMapDelete m (String.mk primKeyChars)
         else listMapSet m (String.mk primKeyChars) bn) rest

/-- The body of the `IndexTables` loop for one scheduled table. -/
def indexOneTable (cache : List (String × TableIndex)) (store : Store)
    (tableKey : String) (blockNum : Nat) : Except String TableIndex :=
  match indexStartingPoint cache store tableKey blockNum with
  | .error e => .error e
  | .ok index =>
    let firstRowKey := tableKey.data ++ ':' :: HexBlockNum (index.AtBlockNum + 1)
    let lastRowKey := tableKey.data ++ ':' :: HexBlockNum (blockNum + 1)
    let rows := ScanTabletRows store firstRowKey lastRowKey
    match applyRows index.Map rows with
    | .error e => .error e
    | .ok m =>
      .ok { AtBlockNum := blockNum, Squelched := rows.length % 2 ^ 32, Map := m }

structure IndexCacheState where
  lastIndexes : List (String × TableIndex)
  lastCounters : List (String × Nat)
  scheduleIndexing : List (String × Nat)
  deriving Repr, DecidableEq

/-- The `IndexTables` loop over the indexing schedule: build, marshal, batch
the snapshot under the reverse-block-num key, cache the index, reset the
counter and unschedule the table; any error aborts the whole call. -/
def IndexTablesLoop (store : Store) :
    List (String × Nat) → IndexCacheState → List (List Char × List Nat) →
    Except String (IndexCacheState × List (List Char × List Nat))
  | [], st, batch => .ok (st, batch)
  | (tableKey, blockNum) :: rest, st, batch =>
    match indexOneTable st.lastIndexes store tableKey blockNum with
    | .error e => .error e
    | .ok index =>
      match index.MarshalBinary tableKey with
      | .error e => .error e
      | .ok snapshot =>
        IndexTablesLoop store rest
          { lastIndexes := listMapSet st.lastIndexes tableKey index
            lastCounters := listMapSet st.lastCounters tableKey 0
            scheduleIndexing := listMapDelete st.scheduleIndexing tableKey }
          (batch ++ [(tableKey.data ++ ':' :: HexRevBlockNum index.AtBlockNum, snapshot)])

def IndexTables (st : IndexCacheState) (store : Store) :
    Except String (IndexCacheState × List (List Char × List Nat)) :=
  IndexTablesLoop store st.scheduleIndexing st []

/-- The spec-side description of the scan fold: set on non-tombstone, delete
on tombstone, in scan order. -/
structure LogicalRow where
  bn : Nat
  pk : String
  value : List Nat
  deriving Repr, DecidableEq

def applyLogicalRows (m : List (String × Nat)) : List LogicalRow → List (String × Nat)
  | [] => m
  | l :: rest =>
    applyLogicalRows
      (if l.value.length = 0 then listMapDelete m l.pk else listMapSet m l.pk l.bn) rest

def storeRowOf (tableKey : String) (l : LogicalRow) : StoreRow :=
  { key := rowKeyOf tableKey l.bn l.pk, value := l.value }

/-! ### Multi-contract fan-out (grpc `GetMultiContractsTableRows`)

The handler sorts the requested contracts, pushes them through a
`dhammer.Nailer` of width 64 and streams each result as it leaves the nailer.
Modelled from the spec: the nailer is a bounded-concurrency pipeline that
releases results in push order — a result is emitted only once every
earlier-pushed job has been emitted, whatever order the per-contract reads
complete in.  `schedule` below is the completion order (a permutation of the
job indices); the emit loop releases the contiguous prefix of completed
jobs. -/

def nailerConcurrency : Nat := 64

def emitReady (completed : List Nat) : Nat → Nat → Nat × List Nat
  | 0, next => (next, [])
  | fuel + 1, next =>
    if next ∈ completed then
      let r := emitReady completed fuel (next + 1)
      (r.1, next :: r.2)
    else (next, [])

def nailerRun (n : Nat) : List Nat → List Nat → Nat → List Nat
  | [], _, _ => []
  | j :: rest, completed, next =>
    let r := emitReady (j :: completed) n next
    r.2 ++ nailerRun n rest (j :: completed) r.1

/-- The indices the nailer emits, in order, when jobs `0..n-1` complete in
the order given by `schedule`. -/
def nailerOutput (n : Nat) (schedule : List Nat) : List Nat :=
  nailerRun n schedule [] 0

/-- Go's `request.Contracts[left] < request.Contracts[right]` comparator:
byte-wise lexicographic order on the contract names. -/
def contractLe (a b : String) : Bool := lexLe a.data b.data

def insertContract (a : String) : List String → List String
  | [] => [a]
  | b :: t => if contractLe a b then a :: b :: t else b :: insertContract a t

/-- `sort.Slice(request.Contracts, ...)`: sort ascending by name. -/
def sortContracts : List String → List String
  | [] => []
  | a :: t => insertContract a (sortContracts t)

/-- `GetMultiContractsTableRows`: sort the contracts ascending, read each
through the nailer, stream results in nailer emit order. -/
def GetMultiContractsTableRows {α : Type} (contracts : List String)
    (readContract : String → α) (schedule : List Nat) : List α :=
  let sorted := sortContracts contracts
  (nailerOutput sorted.length schedule).map
    (fun i => (sorted.map readContract).getD i (readContract ""))

theorem bigUint32_bigPutUint32 (n : Nat) (h : n < 2 ^ 32) :
    bigUint32 (bigPutUint32 n) = n := by
  simp only [bigPutUint32, bigUint32]
  omega

theorem bigUint64_bigPutUint64 (n : Nat) (h : n < 2 ^ 64) :
    bigUint64 (bigPutUint64 n) = n := by
  simp only [bigPutUint64, bigUint64]
  omega

theorem length_bigPutUint32 (n : Nat) : (bigPutUint32 n).length = 4 := rfl

theorem length_bigPutUint64 (n : Nat) : (bigPutUint64 n).length = 8 := rfl

/-- C4: the scheduling decision is exactly the conjunction from the spec:
counter at least 1000, and not (map size above 100000 with counter below
10000), and not (map size above 50000 with counter below 5000); it is false
whenever the counter is below 1000, and true when the counter reaches 1000
with no cached snapshot. -/
theorem C4_shouldTriggerIndexing_rule (c s : Nat) :
    (shouldTriggerIndexing c (some s) =
      (decide (1000 ≤ c) && !(decide (100000 < s) && decide (c < 10000))
        && !(decide (50000 < s) && decide (c < 5000)))) ∧
    (shouldTriggerIndexing c none = decide (1000 ≤ c)) := by
  constructor
  · simp only [shouldTriggerIndexing]
    by_cases h1 : c < 1000 <;>
      by_cases h2 : 50000 < s ∧ c < 5000 <;>
        by_cases h3 : 100000 < s ∧ c < 10000 <;>
          simp [h1, h2, h3] <;> omega
  · simp only [shouldTriggerIndexing]
    by_cases h1 : c < 1000 <;> simp [h1] <;> omega

/-- C1 (code evaluated at the failing input): with `irreversible_only = true`,
LIB = 10 and requested block 5 (which satisfies 0 < 5 <= LIB), `prepareRead`
returns chosen block num 10 (the LIB), not 5 as the claim requires; the
rejection above LIB and the two `block_num = 0` resolutions do behave as
claimed. -/
theorem C1_prepareRead_failing_input :
    prepareRead 10 12 (fun _ => []) 5 true =
      .ok { chosenBlockNum := 10, speculativeWrites := [] } ∧
    prepareRead 10 12 (fun _ => []) 11 true =
      .error (.blockNumHigherThanLIB 11 10) ∧
    prepareRead 10 12 (fun _ => []) 0 true =
      .ok { chosenBlockNum := 10, speculativeWrites := [] } ∧
    prepareRead 10 12 (fun _ => []) 0 false =
      .ok { chosenBlockNum := 12, speculativeWrites := [] } := by
  refine ⟨rfl, rfl, rfl, rfl⟩

/-- C2 (code evaluated at the failing input): the guard in
`ContractTableScopeTablet.NewRowFromKV` is inverted.  The 8-byte payload that
`NewRow` itself produces for a live scope row is rejected, the empty tombstone
payload is rejected, while a 3-byte value no site ever writes is accepted —
the exact opposite of the valid shapes named by the guard's own error
message and the spec's persisted layout. -/
theorem C2_tableScope_NewRowFromKV_failing_input :
    isErr (ContractTableScopeTablet.NewRowFromKV "ctbls/eosio:accounts/00000001/alice"
      (ContractTableScopeTablet.NewRow "ctbls/eosio:accounts" 1 "alice" "bob" false).payload)
      = true ∧
    isErr (ContractTableScopeTablet.NewRowFromKV "ctbls/eosio:accounts/00000001/alice" [])
      = true ∧
    isErr (ContractTableScopeTablet.NewRowFromKV "ctbls/eosio:accounts/00000001/alice" [1, 2, 3])
      = false := by
  refine ⟨by decide, by decide, by decide⟩

theorem shiftedSymbol_lt (c i : Nat) : (c % 32) <<< (64 - 5 * (i + 1)) < 2 ^ 64 := by
  rw [Nat.shiftLeft_eq]
  have hc : c % 32 ≤ 31 := by omega
  have hs : (64 - 5 * (i + 1)) ≤ 59 := by omega
  calc c % 32 * 2 ^ (64 - 5 * (i + 1)) ≤ 31 * 2 ^ 59 := by
        exact Nat.mul_le_mul hc (Nat.pow_le_pow_right (by omega) hs)
    _ < 2 ^ 64 := by norm_num

theorem stringToName_lt (s : List Char) : stringToName s < 2 ^ 64 := by
  have step : ∀ (l : List Nat) (acc : Nat), acc < 2 ^ 64 →
      l.foldl (fun val i =>
        let c := charToSymbol (s.getD i '.')
        if i < 12 then val ||| ((c % 32) <<< (64 - 5 * (i + 1)))
        else val ||| (c % 16)) acc < 2 ^ 64 := by
    intro l
    induction l with
    | nil => intro acc h; exact h
    | cons i rest ih =>
      intro acc h
      apply ih
      by_cases hi : i < 12
      · simpa [hi] using Nat.or_lt_two_pow h (shiftedSymbol_lt _ i)
      · have : charToSymbol (s.getD i '.') % 16 < 2 ^ 64 := by
          have := Nat.mod_lt (charToSymbol (s.getD i '.')) (y := 16) (by omega)
          omega
        simpa [hi] using Nat.or_lt_two_pow h this
  exact step (List.range 13) 0 (by norm_num)

theorem NA_lt (s : List Char) : NA s < 2 ^ 64 :=
  stringToName_lt s

theorem bigUint64_append (n : Nat) (rest : List Nat) :
    bigUint64 (bigPutUint64 n ++ rest) = bigUint64 (bigPutUint64 n) := by
  simp [bigPutUint64, bigUint64]

/-- C7: a non-deletion contract-state row stores exactly the payer name as 8
big-endian bytes followed by the data, so `Payer()` recovers the payer
(for payer strings that are canonical EOS names, i.e. that survive the
eos-go name codec round trip) and `Data()` recovers the data. -/
theorem C7_contractState_NewRow_payload (t : String) (blockNum : Nat)
    (primaryKey payer : String) (data : List Nat)
    (hname : NameToString (NA payer.data) = payer.data) :
    (ContractStateTablet.NewRow t blockNum primaryKey payer data false).payload
      = bigPutUint64 (NA payer.data) ++ data ∧
    ContractStateRow.Payer
      (ContractStateTablet.NewRow t blockNum primaryKey payer data false)
      = payer.data ∧
    ContractStateRow.Data
      (ContractStateTablet.NewRow t blockNum primaryKey payer data false)
      = data := by
  refine ⟨rfl, ?_, ?_⟩
  · show NameToString (bigUint64 (bigPutUint64 (NA payer.data) ++ data)) = payer.data
    rw [bigUint64_append, bigUint64_bigPutUint64 _ (NA_lt payer.data), hname]
  · show (bigPutUint64 (NA payer.data) ++ data).drop 8 = data
    simp [bigPutUint64]

theorem C7_contractState_NewRow_payload_witness :
    NameToString (NA "alice".data) = "alice".data ∧
    ((ContractStateTablet.NewRow "cst/eosio.token:alice:accounts" 100 "eos" "alice" [1, 2] false).payload
      = bigPutUint64 (NA "alice".data) ++ [1, 2] ∧
    ContractStateRow.Payer
      (ContractStateTablet.NewRow "cst/eosio.token:alice:accounts" 100 "eos" "alice" [1, 2] false)
      = "alice".data ∧
    ContractStateRow.Data
      (ContractStateTablet.NewRow "cst/eosio.token:alice:accounts" 100 "eos" "alice" [1, 2] false)
      = [1, 2]) :=
  ⟨by decide, C7_contractState_NewRow_payload "cst/eosio.token:alice:accounts" 100 "eos" "alice"
    [1, 2] (by decide)⟩

/-- C9: `ContractStateTablet.NewRowFromKV` fails exactly when the value has
fewer than 8 bytes or the key does not explode; in particular the empty
payload a deletion `NewRow` produces is always rejected, whatever the key. -/
theorem C9_contractState_NewRowFromKV_errors (key : String) (value : List Nat)
    (t : String) (blockNum : Nat) (primaryKey payer : String) (data : List Nat) :
    isErr (ContractStateTablet.NewRowFromKV key value)
      = (decide (value.length < 8) || isErr (ExplodeTabletRowKey key)) ∧
    (ContractStateTablet.NewRow t blockNum primaryKey payer data true).payload = [] ∧
    isErr (ContractStateTablet.NewRowFromKV key
      (ContractStateTablet.NewRow t blockNum primaryKey payer data true).payload) = true := by
  refine ⟨?_, rfl, rfl⟩
  unfold ContractStateTablet.NewRowFromKV
  by_cases h : value.length < 8
  · simp [h, isErr]
  · simp only [h, if_false]
    cases hE : ExplodeTabletRowKey key with
    | error e => simp [isErr, hE, h]
    | ok v =>
      obtain ⟨a, b, c, d⟩ := v
      simp [isErr, hE, h]

theorem parseUintHex_lt {s : List Char} {b v : Nat} (h : parseUintHex s b = some v) :
    v < 2 ^ b := by
  unfold parseUintHex at h
  split at h
  · exact absurd h (by simp)
  · revert h
    cases parseHexChars s 0 with
    | none => simp
    | some w =>
      simp only
      split
      · intro hv
        cases hv
        assumption
      · simp

theorem canonHex_elim {w : Nat} {s : List Char} (h : canonHex w s = true) :
    ∃ v, parseUintHex s (4 * w) = some v ∧ s = hexFixed w v ∧ v < 2 ^ (4 * w) := by
  unfold canonHex at h
  revert h
  cases hp : parseUintHex s (4 * w) with
  | none => simp
  | some v =>
    simp only [decide_eq_true_eq]
    intro hs
    exact ⟨v, rfl, hs, parseUintHex_lt hp⟩

theorem splitChar_ne_nil (sep : Char) (l : List Char) : splitChar sep l ≠ [] := by
  cases l with
  | nil => simp [splitChar]
  | cons c rest =>
    simp only [splitChar]
    split
    · simp
    · cases h : splitChar sep rest with
      | nil => simp
      | cons a t => simp

theorem splitChar_single (sep : Char) (l b : List Char) (h : splitChar sep l = [b]) :
    l = b := by
  induction l generalizing b with
  | nil =>
    simp [splitChar] at h
    exact h.symm
  | cons c rest ih =>
    simp only [splitChar] at h
    by_cases hc : c = sep
    · simp only [hc, if_pos rfl] at h
      have ht : splitChar sep rest = [] := by
        have := congrArg List.tail h
        simpa using this
      exact absurd ht (splitChar_ne_nil sep rest)
    · simp only [if_neg hc] at h
      revert h
      cases hr : splitChar sep rest with
      | nil => exact absurd hr (splitChar_ne_nil sep rest)
      | cons a t =>
        intro h
        have h1 : c :: a = b := (List.cons.injEq _ _ _ _).mp h |>.1
        have h2 : t = [] := (List.cons.injEq _ _ _ _).mp h |>.2
        subst h2
        have : rest = a := ih a hr
        subst this
        exact h1

theorem splitChar_pair (sep : Char) (l a b : List Char)
    (h : splitChar sep l = [a, b]) : l = a ++ sep :: b := by
  induction l generalizing a with
  | nil => simp [splitChar] at h
  | cons c rest ih =>
    simp only [splitChar] at h
    by_cases hc : c = sep
    · simp only [hc, if_pos rfl] at h
      have ha : a = [] := ((List.cons.injEq _ _ _ _).mp h).1.symm
      have hr : splitChar sep rest = [b] := ((List.cons.injEq _ _ _ _).mp h).2
      subst ha
      have : rest = b := splitChar_single sep rest b hr
      subst this
      simp [hc]
    · simp only [if_neg hc] at h
      revert h
      cases hr : splitChar sep rest with
      | nil => exact absurd hr (splitChar_ne_nil sep rest)
      | cons hd t =>
        intro h
        have h1 : c :: hd = a := ((List.cons.injEq _ _ _ _).mp h).1
        have h2 : t = [b] := ((List.cons.injEq _ _ _ _).mp h).2
        subst h2
        have : rest = hd ++ sep :: b := ih hd hr
        subst this
        rw [← h1]
        simp

theorem bigUint32_append (n : Nat) (rest : List Nat) :
    bigUint32 (bigPutUint32 n ++ rest) = bigUint32 (bigPutUint32 n) := by
  simp [bigPutUint32, bigUint32]

theorem String.mk_data (s : String) : String.mk s.data = s := rfl

theorem codec_oneByte_roundtrip (pk : String) (h : canonHex 2 pk.data = true) :
    ∃ b, oneBytePrimaryKeyWriter pk = .ok b ∧ b.length = 1 ∧
      ∀ rest, oneBytePrimaryKeyReader (b ++ rest) = .ok pk := by
  obtain ⟨v, hp, hs, _⟩ := canonHex_elim h
  refine ⟨[v], ?_, rfl, ?_⟩
  · simp only [oneBytePrimaryKeyWriter]
    rw [show (4 * 2 : Nat) = 8 from rfl] at hp
    rw [hp]
  · intro rest
    simp only [oneBytePrimaryKeyReader, List.cons_append]
    rw [← hs, String.mk_data]

theorem codec_oneUint64_roundtrip (pk : String) (h : canonHex 16 pk.data = true) :
    ∃ b, oneUint64PrimaryKeyWriter pk = .ok b ∧ b.length = 8 ∧
      ∀ rest, oneUint64PrimaryKeyReader (b ++ rest) = .ok pk := by
  obtain ⟨v, hp, hs, hv⟩ := canonHex_elim h
  refine ⟨bigPutUint64 v, ?_, rfl, ?_⟩
  · simp only [oneUint64PrimaryKeyWriter, writeOneUint64]
    rw [show (4 * 16 : Nat) = 64 from rfl] at hp
    rw [hp]
  · intro rest
    simp only [oneUint64PrimaryKeyReader, readOneUint64]
    have hlen : (bigPutUint64 v ++ rest).length = 8 + rest.length := by
      simp [bigPutUint64]
      omega
    rw [if_neg (by omega)]
    rw [bigUint64_append, bigUint64_bigPutUint64 v (by
      rw [show (4 * 16 : Nat) = 64 from rfl] at hv
      exact hv)]
    rw [← hs, String.mk_data]

theorem codec_twoUint64_roundtrip (pk : String) (h : canonTwo64 pk.data = true) :
    ∃ b, twoUint64PrimaryKeyWriter pk = .ok b ∧ b.length = 16 ∧
      ∀ rest, twoUint64PrimaryKeyReader (b ++ rest) = .ok pk := by
  unfold canonTwo64 at h
  revert h
  cases hsp : splitChar ':' pk.data with
  | nil => simp
  | cons c1 t =>
    cases t with
    | nil => simp
    | cons c2 t2 =>
      cases t2 with
      | nil =>
        simp only [Bool.and_eq_true]
        intro ⟨h1, h2⟩
        obtain ⟨v1, hp1, hs1, hv1⟩ := canonHex_elim h1
        obtain ⟨v2, hp2, hs2, hv2⟩ := canonHex_elim h2
        rw [show (4 * 16 : Nat) = 64 from rfl] at hp1 hp2 hv1 hv2
        have hjoin : pk.data = c1 ++ ':' :: c2 := splitChar_pair ':' pk.data c1 c2 hsp
        refine ⟨bigPutUint64 v1 ++ bigPutUint64 v2, ?_, by simp [bigPutUint64], ?_⟩
        · simp only [twoUint64PrimaryKeyWriter, hsp]
          simp only [writeOneUint64]
          rw [hp1, hp2]
        · intro rest
          simp only [twoUint64PrimaryKeyReader]
          have hlen : ((bigPutUint64 v1 ++ bigPutUint64 v2) ++ rest).length
              = 16 + rest.length := by simp [bigPutUint64]; omega
          rw [if_neg (by omega)]
          have hchunk1 : readOneUint64 ((bigPutUint64 v1 ++ bigPutUint64 v2) ++ rest)
              = .ok (String.mk (hexFixed 16 v1)) := by
            simp only [readOneUint64]
            rw [if_neg (by omega)]
            rw [List.append_assoc, bigUint64_append, bigUint64_bigPutUint64 v1 hv1]
          have hdrop : ((bigPutUint64 v1 ++ bigPutUint64 v2) ++ rest).drop 8
              = bigPutUint64 v2 ++ rest := by
            rw [List.append_assoc]
            exact List.drop_left' (length_bigPutUint64 v1)
          have hchunk2 : readOneUint64 (((bigPutUint64 v1 ++ bigPutUint64 v2) ++ rest).drop 8)
              = .ok (String.mk (hexFixed 16 v2)) := by
            rw [hdrop]
            simp only [readOneUint64]
            have hl2 : (bigPutUint64 v2 ++ rest).length = 8 + rest.length := by
              simp [bigPutUint64]
              omega
            rw [if_neg (by omega)]
            rw [bigUint64_append, bigUint64_bigPutUint64 v2 hv2]
          rw [hchunk1, hchunk2]
          show Except.ok (String.mk ((hexFixed 16 v1) ++ ':' :: (hexFixed 16 v2))) = .ok pk
          rw [← hs1, ← hs2, ← hjoin, String.mk_data]
      | cons _ _ => simp

theorem oneBytePrimaryKeyWriter_length (pk : String) (b : List Nat)
    (h : oneBytePrimaryKeyWriter pk = .ok b) : b.length = 1 := by
  unfold oneBytePrimaryKeyWriter at h
  revert h
  cases parseUintHex pk.data 8 with
  | none => simp
  | some v =>
    intro h
    cases h
    rfl

theorem oneUint64PrimaryKeyWriter_length (pk : String) (b : List Nat)
    (h : oneUint64PrimaryKeyWriter pk = .ok b) : b.length = 8 := by
  unfold oneUint64PrimaryKeyWriter writeOneUint64 at h
  revert h
  cases parseUintHex pk.data 64 with
  | none => simp
  | some v =>
    intro h
    cases h
    rfl

theorem twoUint64PrimaryKeyWriter_length (pk : String) (b : List Nat)
    (h : twoUint64PrimaryKeyWriter pk = .ok b) : b.length = 16 := by
  unfold twoUint64PrimaryKeyWriter at h
  revert h
  cases hsp : splitChar ':' pk.data with
  | nil => simp
  | cons c1 t =>
    cases t with
    | nil => simp
    | cons c2 t2 =>
      cases t2 with
      | nil =>
        simp only [writeOneUint64]
        cases parseUintHex (String.mk c1).data 64 with
        | none => simp
        | some v1 =>
          cases parseUintHex (String.mk c2).data 64 with
          | none => simp
          | some v2 =>
            intro h
            cases h
            simp [bigPutUint64]
      | cons _ _ => simp

/-- Each registered table-key kind comes with a reader/writer pair whose
writes are fixed-width and whose reads invert writes of canonical keys. -/
theorem codec_of_registered (tableKey : String)
    (h : indexPrimaryKeyByteCountByTableKey tableKey ≠ 0) :
    ∃ rd wr,
      indexPrimaryKeyReaderByTableKey tableKey = some rd ∧
      indexPrimaryKeyWriterByTableKey tableKey = some wr ∧
      1 ≤ indexPrimaryKeyByteCountByTableKey tableKey ∧
      (∀ pk b, wr pk = .ok b → b.length = indexPrimaryKeyByteCountByTableKey tableKey) ∧
      (∀ pk, canonicalPrimaryKey tableKey pk = true →
        ∃ b, wr pk = .ok b ∧ b.length = indexPrimaryKeyByteCountByTableKey tableKey ∧
          ∀ rest, rd (b ++ rest) = .ok pk) := by
  by_cases h1 : startsWithStr tableKey "al:"
  · refine ⟨twoUint64PrimaryKeyReader, twoUint64PrimaryKeyWriter, ?_, ?_, ?_, ?_, ?_⟩
    · simp [indexPrimaryKeyReaderByTableKey, h1]
    · simp [indexPrimaryKeyWriterByTableKey, h1]
    · simp [indexPrimaryKeyByteCountByTableKey, h1]
    · intro pk b hb
      simp only [indexPrimaryKeyByteCountByTableKey, h1, if_pos]
      exact twoUint64PrimaryKeyWriter_length pk b hb
    · intro pk hc
      have hc' : canonTwo64 pk.data = true := by
        simpa [canonicalPrimaryKey, h1] using hc
      obtain ⟨b, hb, hlen, hrd⟩ := codec_twoUint64_roundtrip pk hc'
      exact ⟨b, hb, by simp [indexPrimaryKeyByteCountByTableKey, h1, hlen], hrd⟩
  · by_cases h2 : startsWithStr tableKey "arl:"
    · refine ⟨oneBytePrimaryKeyReader, oneBytePrimaryKeyWriter, ?_, ?_, ?_, ?_, ?_⟩
      · simp [indexPrimaryKeyReaderByTableKey, h1, h2]
      · simp [indexPrimaryKeyWriterByTableKey, h1, h2]
      · simp [indexPrimaryKeyByteCountByTableKey, h1, h2]
      · intro pk b hb
        simp only [indexPrimaryKeyByteCountByTableKey, h1, h2, if_pos, if_neg,
          Bool.false_eq_true]
        exact oneBytePrimaryKeyWriter_length pk b hb
      · intro pk hc
        have hc' : canonHex 2 pk.data = true := by
          simpa [canonicalPrimaryKey, h1, h2] using hc
        obtain ⟨b, hb, hlen, hrd⟩ := codec_oneByte_roundtrip pk hc'
        exact ⟨b, hb, by simp [indexPrimaryKeyByteCountByTableKey, h1, h2, hlen], hrd⟩
    · by_cases h3 : startsWithStr tableKey "brl"
      · refine ⟨oneBytePrimaryKeyReader, oneBytePrimaryKeyWriter, ?_, ?_, ?_, ?_, ?_⟩
        · simp [indexPrimaryKeyReaderByTableKey, h1, h2, h3]
        · simp [indexPrimaryKeyWriterByTableKey, h1, h2, h3]
        · simp [indexPrimaryKeyByteCountByTableKey, h1, h2, h3]
        · intro pk b hb
          simp only [indexPrimaryKeyByteCountByTableKey, h1, h2, h3, if_pos, if_neg,
            Bool.false_eq_true]
          exact oneBytePrimaryKeyWriter_length pk b hb
        · intro pk hc
          have hc' : canonHex 2 pk.data = true := by
            simpa [canonicalPrimaryKey, h1, h2, h3] using hc
          obtain ⟨b, hb, hlen, hrd⟩ := codec_oneByte_roundtrip pk hc'
          exact ⟨b, hb, by simp [indexPrimaryKeyByteCountByTableKey, h1, h2, h3, hlen], hrd⟩
      · by_cases h4 : startsWithStr tableKey "ka2:"
        · refine ⟨twoUint64PrimaryKeyReader, twoUint64PrimaryKeyWriter, ?_, ?_, ?_, ?_, ?_⟩
          · simp [indexPrimaryKeyReaderByTableKey, h1, h2, h3, h4]
          · simp [indexPrimaryKeyWriterByTableKey, h1, h2, h3, h4]
          · simp [indexPrimaryKeyByteCountByTableKey, h1, h2, h3, h4]
          · intro pk b hb
            simp only [indexPrimaryKeyByteCountByTableKey, h1, h2, h3, h4, if_pos, if_neg,
              Bool.false_eq_true]
            exact twoUint64PrimaryKeyWriter_length pk b hb
          · intro pk hc
            have hc' : canonTwo64 pk.data = true := by
              simpa [canonicalPrimaryKey, h1, h2, h3, h4] using hc
            obtain ⟨b, hb, hlen, hrd⟩ := codec_twoUint64_roundtrip pk hc'
            exact ⟨b, hb, by simp [indexPrimaryKeyByteCountByTableKey, h1, h2, h3, h4, hlen],
              hrd⟩
        · by_cases h5 : startsWithStr tableKey "td:"
          · refine ⟨oneUint64PrimaryKeyReader, oneUint64PrimaryKeyWriter, ?_, ?_, ?_, ?_, ?_⟩
            · simp [indexPrimaryKeyReaderByTableKey, h1, h2, h3, h4, h5]
            · simp [indexPrimaryKeyWriterByTableKey, h1, h2, h3, h4, h5]
            · simp [indexPrimaryKeyByteCountByTableKey, h1, h2, h3, h4, h5]
            · intro pk b hb
              simp only [indexPrimaryKeyByteCountByTableKey, h1, h2, h3, h4, h5, if_pos,
                if_neg, Bool.false_eq_true]
              exact oneUint64PrimaryKeyWriter_length pk b hb
            · intro pk hc
              have hc' : canonHex 16 pk.data = true := by
                simpa [canonicalPrimaryKey, h1, h2, h3, h4, h5] using hc
              obtain ⟨b, hb, hlen, hrd⟩ := codec_oneUint64_roundtrip pk hc'
              exact ⟨b, hb,
                by simp [indexPrimaryKeyByteCountByTableKey, h1, h2, h3, h4, h5, hlen], hrd⟩
          · by_cases h6 : startsWithStr tableKey "ts:"
            · refine ⟨oneUint64PrimaryKeyReader, oneUint64PrimaryKeyWriter, ?_, ?_, ?_, ?_, ?_⟩
              · simp [indexPrimaryKeyReaderByTableKey, h1, h2, h3, h4, h5, h6]
              · simp [indexPrimaryKeyWriterByTableKey, h1, h2, h3, h4, h5, h6]
              · simp [indexPrimaryKeyByteCountByTableKey, h1, h2, h3, h4, h5, h6]
              · intro pk b hb
                simp only [indexPrimaryKeyByteCountByTableKey, h1, h2, h3, h4, h5, h6, if_pos,
                  if_neg, Bool.false_eq_true]
                exact oneUint64PrimaryKeyWriter_length pk b hb
              · intro pk hc
                have hc' : canonHex 16 pk.data = true := by
                  simpa [canonicalPrimaryKey, h1, h2, h3, h4, h5, h6] using hc
                obtain ⟨b, hb, hlen, hrd⟩ := codec_oneUint64_roundtrip pk hc'
                exact ⟨b, hb,
                  by simp [indexPrimaryKeyByteCountByTableKey, h1, h2, h3, h4, h5, h6, hlen],
                  hrd⟩
            · exact absurd (by
                simp [indexPrimaryKeyByteCountByTableKey, h1, h2, h3, h4, h5, h6]) h

theorem marshalEntries_offsets (writer : String → Except String (List Nat)) (Pb : Nat)
    (hw : ∀ pk b, writer pk = .ok b → b.length = Pb) :
    ∀ (m : List (String × Nat)) (es : List Nat), marshalEntries writer m = .ok es →
      es.length = m.length * (Pb + 4) ∧
      ∀ i (hi : i < m.length), ∃ pkb,
        writer (m.get ⟨i, hi⟩).1 = .ok pkb ∧ pkb.length = Pb ∧
        (es.drop (i * (Pb + 4))).take (Pb + 4) = pkb ++ bigPutUint32 (m.get ⟨i, hi⟩).2 := by
  intro m
  induction m with
  | nil =>
    intro es hes
    simp only [marshalEntries, Except.ok.injEq] at hes
    subst hes
    exact ⟨by simp, fun i hi => absurd hi (by simp)⟩
  | cons p rest ih =>
    intro es hes
    obtain ⟨pk, bn⟩ := p
    simp only [marshalEntries] at hes
    revert hes
    cases hb : writer pk with
    | error e => simp
    | ok b =>
      cases htail : marshalEntries writer rest with
      | error e => simp
      | ok tail =>
        simp only [Except.ok.injEq]
        intro hes
        subst hes
        have hblen : b.length = Pb := hw pk b hb
        have hfront : (b ++ bigPutUint32 bn).length = Pb + 4 := by
          simp [hblen, bigPutUint32]
        obtain ⟨htlen, hentries⟩ := ih tail htail
        constructor
        · simp only [List.length_append, List.length_cons, hblen, htlen, bigPutUint32,
            List.length_cons]
          simp
          ring
        · intro i hi
          match i with
          | 0 =>
            refine ⟨b, hb, hblen, ?_⟩
            simp only [Nat.zero_mul, List.drop_zero]
            exact List.take_left' hfront
          | Nat.succ j =>
            have hj : j < rest.length := by
              simpa using Nat.lt_of_succ_lt_succ hi
            obtain ⟨pkb, hwj, hlenj, hseg⟩ := hentries j hj
            refine ⟨pkb, hwj, hlenj, ?_⟩
            have hdrop16 : (b ++ bigPutUint32 bn ++ tail).drop ((j + 1) * (Pb + 4))
                = tail.drop (j * (Pb + 4)) := by
              have hmul : (j + 1) * (Pb + 4) = (Pb + 4) + j * (Pb + 4) := by ring
              rw [hmul, ← List.drop_drop]
              congr 1
              exact List.drop_left' hfront
            rw [hdrop16]
            exact hseg

theorem parseEntriesAux_marshalEntries (Pb : Nat)
    (reader : List Nat → Except String String)
    (writer : String → Except String (List Nat)) (hPb : 1 ≤ Pb) :
    ∀ (m : List (String × Nat)),
      (∀ p ∈ m, p.2 < 2 ^ 32 ∧ ∃ b, writer p.1 = .ok b ∧ b.length = Pb ∧
        ∀ rest, reader (b ++ rest) = .ok p.1) →
      ∀ es fuel, es.length ≤ fuel → marshalEntries writer m = .ok es →
        parseEntriesAux Pb reader fuel es = .ok m := by
  intro m
  induction m with
  | nil =>
    intro _ es fuel _ hes
    simp only [marshalEntries, Except.ok.injEq] at hes
    subst hes
    cases fuel <;> rfl
  | cons p rest ih =>
    intro hm es fuel hfuel hes
    obtain ⟨pk, bn⟩ := p
    obtain ⟨hbn, b, hb, hblen, hrd⟩ := hm (pk, bn) (by simp)
    simp only [marshalEntries, hb] at hes
    revert hes
    cases htail : marshalEntries writer rest with
    | error e => simp
    | ok tail =>
      simp only [Except.ok.injEq]
      intro hes
      subst hes
      have hfront : (b ++ bigPutUint32 bn).length = Pb + 4 := by
        simp [hblen, bigPutUint32]
      cases b with
      | nil => simp at hblen; omega
      | cons x xs =>
        have hxlen : (x :: xs).length = Pb := hblen
        have hlen : ((x :: xs) ++ bigPutUint32 bn ++ tail).length
            = (Pb + 4) + tail.length := by
          simp only [List.length_append]
          simp [bigPutUint32] at hfront ⊢
          omega
        cases fuel with
        | zero =>
          rw [hlen] at hfuel
          omega
        | succ f =>
          have h1 : reader (x :: ((xs ++ bigPutUint32 bn) ++ tail)) = .ok pk := by
            have hr := hrd (bigPutUint32 bn ++ tail)
            rw [← List.append_assoc] at hr
            exact hr
          have h2 : (x :: ((xs ++ bigPutUint32 bn) ++ tail)).drop (Pb + 4) = tail := by
            show (((x :: xs) ++ bigPutUint32 bn) ++ tail).drop (Pb + 4) = tail
            exact List.drop_left' hfront
          have h3 : bigUint32 ((x :: ((xs ++ bigPutUint32 bn) ++ tail)).drop Pb) = bn := by
            show bigUint32 ((((x :: xs) ++ bigPutUint32 bn) ++ tail).drop Pb) = bn
            rw [List.append_assoc, List.drop_left' hxlen, bigUint32_append,
              bigUint32_bigPutUint32 bn hbn]
          have h4 : parseEntriesAux Pb reader f tail = .ok rest := by
            apply ih (fun q hq => hm q (by simp [hq])) tail f ?_ htail
            rw [hlen] at hfuel
            omega
          show parseEntriesAux Pb reader (f + 1) (x :: ((xs ++ bigPutUint32 bn) ++ tail))
            = .ok ((pk, bn) :: rest)
          rw [parseEntriesAux, h1, h2, h3, h4]

theorem parseEntries_marshalEntries (Pb : Nat)
    (reader : List Nat → Except String String)
    (writer : String → Except String (List Nat)) (hPb : 1 ≤ Pb)
    (m : List (String × Nat))
    (hm : ∀ p ∈ m, p.2 < 2 ^ 32 ∧ ∃ b, writer p.1 = .ok b ∧ b.length = Pb ∧
      ∀ rest, reader (b ++ rest) = .ok p.1) :
    ∀ es, marshalEntries writer m = .ok es → parseEntries Pb reader es = .ok m := by
  intro es hes
  unfold parseEntries
  exact parseEntriesAux_marshalEntries Pb reader writer hPb m hm es es.length (le_refl _) hes

theorem foldl_listMapSet_append {α : Type} (m : List (String × α)) :
    ∀ acc, ((acc ++ m).map Prod.fst).Nodup →
      m.foldl (fun n p => listMapSet n p.1 p.2) acc = acc ++ m := by
  induction m with
  | nil => intro acc _; simp
  | cons p rest ih =>
    intro acc h
    obtain ⟨k, v⟩ := p
    have hk : k ∉ acc.map Prod.fst := by
      simp only [List.map_append, List.map_cons, List.nodup_append] at h
      intro hmem
      exact h.2.2 hmem (by simp)
    have hstep : listMapSet acc k v = acc ++ [(k, v)] := by
      simp only [listMapSet, if_neg hk]
    have hnext : (((acc ++ [(k, v)]) ++ rest).map Prod.fst).Nodup := by
      have : (acc ++ [(k, v)]) ++ rest = acc ++ (k, v) :: rest := by simp
      rw [this]
      exact h
    calc ((k, v) :: rest).foldl (fun n p => listMapSet n p.1 p.2) acc
        = rest.foldl (fun n p => listMapSet n p.1 p.2) (acc ++ [(k, v)]) := by
          simp [hstep]
      _ = (acc ++ [(k, v)]) ++ rest := ih (acc ++ [(k, v)]) hnext
      _ = acc ++ (k, v) :: rest := by simp

theorem buildMap_self (m : List (String × Nat)) (h : (m.map Prod.fst).Nodup) :
    buildMap m = m := by
  have := foldl_listMapSet_append m [] (by simpa using h)
  simpa [buildMap] using this

theorem marshalEntries_isOk (writer : String → Except String (List Nat))
    (m : List (String × Nat)) (hw : ∀ p ∈ m, ∃ b, writer p.1 = .ok b) :
    ∃ es, marshalEntries writer m = .ok es := by
  induction m with
  | nil => exact ⟨[], rfl⟩
  | cons p rest ih =>
    obtain ⟨pk, bn⟩ := p
    obtain ⟨b, hb⟩ := hw (pk, bn) (by simp)
    obtain ⟨tail, htail⟩ := ih (fun q hq => hw q (by simp [hq]))
    exact ⟨b ++ bigPutUint32 bn ++ tail, by simp only [marshalEntries, hb, htail]⟩

/-- C3 (counterexample to the little-endian reading): marshalling a table
index with squelched count 1 and one entry mapping primary key
`0000000000000002` to block 3 under a `ts:` table key yields a blob whose
first four bytes are `[0, 0, 0, 1]` — big-endian — not the little-endian
`[1, 0, 0, 0]` the claim requires, and whose block-num field reads
`[0, 0, 0, 3]`, not `[3, 0, 0, 0]`. -/
theorem C3_squelched_big_endian_counterexample :
    TableIndex.MarshalBinary
        { AtBlockNum := 5, Squelched := 1, Map := [("0000000000000002", 3)] }
        "ts:eosio:accounts"
      = .ok [0, 0, 0, 1, 0, 0, 0, 0, 0, 0, 0, 0, 0, 0, 0, 0,
             0, 0, 0, 0, 0, 0, 0, 2, 0, 0, 0, 3] ∧
    ([0, 0, 0, 1, 0, 0, 0, 0, 0, 0, 0, 0, 0, 0, 0, 0,
      0, 0, 0, 0, 0, 0, 0, 2, 0, 0, 0, 3] : List Nat).take 4 ≠ [1, 0, 0, 0] ∧
    (([0, 0, 0, 1, 0, 0, 0, 0, 0, 0, 0, 0, 0, 0, 0, 0,
       0, 0, 0, 0, 0, 0, 0, 2, 0, 0, 0, 3] : List Nat).drop 24).take 4 ≠ [3, 0, 0, 0] := by
  refine ⟨by rfl, by decide, by decide⟩

/-- C3 (amended to big-endian): a successful `MarshalBinary` blob has exactly
`16 + n * (Pb + 4)` bytes; bytes 0..4 are the squelched count as a big-endian
u32; bytes 4..16 are zero; and entry `i` occupies the `Pb + 4` bytes at offset
`16 + i * (Pb + 4)`: the codec's `Pb` primary-key bytes then the block num as
a big-endian u32. -/
theorem C3_marshal_layout (tableKey : String) (idx : TableIndex) (blob : List Nat)
    (hm : idx.MarshalBinary tableKey = .ok blob) :
    blob.length = 16 + idx.Map.length * (indexPrimaryKeyByteCountByTableKey tableKey + 4) ∧
    blob.take 4 = bigPutUint32 idx.Squelched ∧
    (blob.drop 4).take 12 = List.replicate 12 0 ∧
    ∀ i (hi : i < idx.Map.length), ∃ pkb wr,
      indexPrimaryKeyWriterByTableKey tableKey = some wr ∧
      wr (idx.Map.get ⟨i, hi⟩).1 = .ok pkb ∧
      pkb.length = indexPrimaryKeyByteCountByTableKey tableKey ∧
      (blob.drop (16 + i * (indexPrimaryKeyByteCountByTableKey tableKey + 4))).take
        (indexPrimaryKeyByteCountByTableKey tableKey + 4)
        = pkb ++ bigPutUint32 (idx.Map.get ⟨i, hi⟩).2 := by
  by_cases hreg : indexPrimaryKeyByteCountByTableKey tableKey = 0
  · unfold TableIndex.MarshalBinary at hm
    rw [if_pos hreg] at hm
    exact absurd hm (by simp)
  · obtain ⟨rd, wr, hrdd, hwrd, hPb1, hwlen, _⟩ := codec_of_registered tableKey hreg
    unfold TableIndex.MarshalBinary at hm
    rw [if_neg hreg, hwrd] at hm
    cases hes : marshalEntries wr idx.Map with
    | error e =>
      simp only [hes] at hm
      exact absurd hm (by simp)
    | ok es =>
      simp only [hes, Except.ok.injEq] at hm
      subst hm
      obtain ⟨heslen, hoff⟩ := marshalEntries_offsets wr _ hwlen idx.Map es hes
      refine ⟨?_, ?_, ?_, ?_⟩
      · simp only [List.length_append, List.length_replicate, length_bigPutUint32, heslen]
        try omega
      · show ((bigPutUint32 idx.Squelched ++ List.replicate 12 0) ++ es).take 4
          = bigPutUint32 idx.Squelched
        rw [List.append_assoc]
        exact List.take_left' (length_bigPutUint32 _)
      · show (((bigPutUint32 idx.Squelched ++ List.replicate 12 0) ++ es).drop 4).take 12
          = List.replicate 12 0
        rw [List.append_assoc, List.drop_left' (length_bigPutUint32 _)]
        exact List.take_left' (by simp)
      · intro i hi
        obtain ⟨pkb, hwj, hlenj, hseg⟩ := hoff i hi
        refine ⟨pkb, wr, hwrd, hwj, hlenj, ?_⟩
        have hdrop : ((bigPutUint32 idx.Squelched ++ List.replicate 12 0) ++ es).drop
            (16 + i * (indexPrimaryKeyByteCountByTableKey tableKey + 4))
            = es.drop (i * (indexPrimaryKeyByteCountByTableKey tableKey + 4)) := by
          rw [← List.drop_drop]
          congr 1
        rw [hdrop]
        exact hseg

theorem C3_marshal_layout_witness :
    TableIndex.MarshalBinary
        { AtBlockNum := 5, Squelched := 1, Map := [("0000000000000002", 3)] }
        "ts:eosio:accounts"
      = .ok [0, 0, 0, 1, 0, 0, 0, 0, 0, 0, 0, 0, 0, 0, 0, 0,
             0, 0, 0, 0, 0, 0, 0, 2, 0, 0, 0, 3] ∧
    ([0, 0, 0, 1, 0, 0, 0, 0, 0, 0, 0, 0, 0, 0, 0, 0,
      0, 0, 0, 0, 0, 0, 0, 2, 0, 0, 0, 3] : List Nat).length
      = 16 + ([("0000000000000002", 3)] : List (String × Nat)).length
          * (indexPrimaryKeyByteCountByTableKey "ts:eosio:accounts" + 4) ∧
    ([0, 0, 0, 1, 0, 0, 0, 0, 0, 0, 0, 0, 0, 0, 0, 0,
      0, 0, 0, 0, 0, 0, 0, 2, 0, 0, 0, 3] : List Nat).take 4 = bigPutUint32 1 :=
  ⟨by rfl,
   (C3_marshal_layout "ts:eosio:accounts"
      { AtBlockNum := 5, Squelched := 1, Map := [("0000000000000002", 3)] }
      [0, 0, 0, 1, 0, 0, 0, 0, 0, 0, 0, 0, 0, 0, 0, 0,
       0, 0, 0, 0, 0, 0, 0, 2, 0, 0, 0, 3] (by rfl)).1,
   (C3_marshal_layout "ts:eosio:accounts"
      { AtBlockNum := 5, Squelched := 1, Map := [("0000000000000002", 3)] }
      [0, 0, 0, 1, 0, 0, 0, 0, 0, 0, 0, 0, 0, 0, 0, 0,
       0, 0, 0, 0, 0, 0, 0, 2, 0, 0, 0, 3] (by rfl)).2.1⟩

/-- C5: for every registered table-key kind, marshalling a table index whose
primary keys are canonical encodings (distinct, with uint32 block nums and
squelched count) and decoding the blob back at the same block num restores
the index exactly. -/
theorem C5_tableIndex_roundtrip (tableKey : String) (idx : TableIndex)
    (hreg : indexPrimaryKeyByteCountByTableKey tableKey ≠ 0)
    (hwf : ∀ p ∈ idx.Map, canonicalPrimaryKey tableKey p.1 = true ∧ p.2 < 2 ^ 32)
    (hnodup : (idx.Map.map Prod.fst).Nodup)
    (hsq : idx.Squelched < 2 ^ 32) :
    ∃ blob, idx.MarshalBinary tableKey = .ok blob ∧
      NewTableIndexFromBinary tableKey idx.AtBlockNum blob = .ok idx := by
  obtain ⟨rd, wr, hrdd, hwrd, hPb1, hwlen, hcanon⟩ := codec_of_registered tableKey hreg
  obtain ⟨es, hes⟩ := marshalEntries_isOk wr idx.Map (fun p hp => by
    obtain ⟨b, hb, _, _⟩ := hcanon p.1 (hwf p hp).1
    exact ⟨b, hb⟩)
  obtain ⟨heslen, _⟩ := marshalEntries_offsets wr _ hwlen idx.Map es hes
  refine ⟨bigPutUint32 idx.Squelched ++ List.replicate 12 0 ++ es, ?_, ?_⟩
  · unfold TableIndex.MarshalBinary
    rw [if_neg hreg]
    simp only [hwrd, hes]
  · have hbloblen : (bigPutUint32 idx.Squelched ++ List.replicate 12 0 ++ es).length
        = 16 + idx.Map.length * (indexPrimaryKeyByteCountByTableKey tableKey + 4) := by
      simp only [List.length_append, List.length_replicate, length_bigPutUint32, heslen]
      try omega
    unfold NewTableIndexFromBinary
    rw [if_neg hreg]
    have halign : ¬((bigPutUint32 idx.Squelched ++ List.replicate 12 0 ++ es).length < 16 ∨
        ((bigPutUint32 idx.Squelched ++ List.replicate 12 0 ++ es).length - 16)
          % (indexPrimaryKeyByteCountByTableKey tableKey + 4) ≠ 0) := by
      rw [hbloblen]
      push_neg
      refine ⟨by omega, ?_⟩
      rw [Nat.add_sub_cancel_left]
      exact Nat.mul_mod_left _ _
    rw [if_neg halign]
    have hdrop16 : (bigPutUint32 idx.Squelched ++ List.replicate 12 0 ++ es).drop 16 = es := by
      show ((bigPutUint32 idx.Squelched ++ List.replicate 12 0) ++ es).drop 16 = es
      exact List.drop_left' (by simp [bigPutUint32])
    have hpe : parseEntries (indexPrimaryKeyByteCountByTableKey tableKey) rd es = .ok idx.Map :=
      parseEntries_marshalEntries _ rd wr hPb1 idx.Map
        (fun p hp => ⟨(hwf p hp).2, hcanon p.1 (hwf p hp).1⟩) es hes
    have hsq' : bigUint32 (bigPutUint32 idx.Squelched ++ List.replicate 12 0 ++ es)
        = idx.Squelched := by
      show bigUint32 ((bigPutUint32 idx.Squelched ++ List.replicate 12 0) ++ es) = _
      rw [List.append_assoc, bigUint32_append, bigUint32_bigPutUint32 _ hsq]
    simp only [hrdd]
    rw [hdrop16]
    simp only [hpe]
    rw [hsq', buildMap_self idx.Map hnodup]

theorem C5_tableIndex_roundtrip_witness :
    (indexPrimaryKeyByteCountByTableKey "ts:eosio:accounts" ≠ 0) ∧
    (∃ blob, TableIndex.MarshalBinary
        { AtBlockNum := 5, Squelched := 1, Map := [("0000000000000002", 3)] }
        "ts:eosio:accounts" = .ok blob ∧
      NewTableIndexFromBinary "ts:eosio:accounts" 5 blob
        = .ok { AtBlockNum := 5, Squelched := 1, Map := [("0000000000000002", 3)] }) :=
  ⟨by decide,
   C5_tableIndex_roundtrip "ts:eosio:accounts"
     { AtBlockNum := 5, Squelched := 1, Map := [("0000000000000002", 3)] }
     (by decide) (by decide) (by decide) (by decide)⟩

/-! ### Hex formatting facts used by key parsing and ordering -/

theorem hexDigitVal_hexDigitChar (d : Nat) (h : d < 16) :
    hexDigitVal (hexDigitChar d) = some d := by
  have hall : ∀ x ∈ List.range 16, hexDigitVal (hexDigitChar x) = some x := by decide
  exact hall d (List.mem_range.mpr h)

theorem length_hexFixed (w n : Nat) : (hexFixed w n).length = w := by
  induction w generalizing n with
  | zero => rfl
  | succ w ih => simp [hexFixed, ih]

theorem parseHexChars_hexFixed (w : Nat) :
    ∀ n acc, n < 16 ^ w → parseHexChars (hexFixed w n) acc = some (acc * 16 ^ w + n) := by
  induction w with
  | zero =>
    intro n acc h
    have : n = 0 := by simpa using h
    subst this
    simp [hexFixed, parseHexChars]
  | succ w ih =>
    intro n acc h
    have hd : n / 16 ^ w % 16 < 16 := Nat.mod_lt _ (by omega)
    have hm : n % 16 ^ w < 16 ^ w := Nat.mod_lt _ (Nat.pos_pow_of_pos w (by omega))
    simp only [hexFixed, parseHexChars, hexDigitVal_hexDigitChar _ hd]
    rw [ih (n % 16 ^ w) (acc * 16 + n / 16 ^ w % 16) hm]
    congr 1
    have hdiv : n / 16 ^ w < 16 := by
      rw [Nat.div_lt_iff_lt_mul (Nat.pos_pow_of_pos w (by omega))]
      have hpow : (16 : Nat) ^ (w + 1) = 16 ^ w * 16 := by ring
      omega
    rw [Nat.mod_eq_of_lt hdiv]
    calc (acc * 16 + n / 16 ^ w) * 16 ^ w + n % 16 ^ w
        = acc * (16 ^ w * 16) + (16 ^ w * (n / 16 ^ w) + n % 16 ^ w) := by ring
      _ = acc * (16 ^ w * 16) + n := by rw [Nat.div_add_mod]
      _ = acc * 16 ^ (w + 1) + n := by rw [pow_succ]

theorem parseUintHex_hexFixed (w bits n : Nat) (hw : 0 < w) (h : n < 16 ^ w)
    (hbits : 16 ^ w ≤ 2 ^ bits) : parseUintHex (hexFixed w n) bits = some n := by
  unfold parseUintHex
  have hne : hexFixed w n ≠ [] := by
    intro he
    have := length_hexFixed w n
    rw [he] at this
    simp at this
    omega
  rw [if_neg hne]
  rw [show parseHexChars (hexFixed w n) 0 = some (0 * 16 ^ w + n) from
    parseHexChars_hexFixed w n 0 h]
  simp only [Nat.zero_mul, Nat.zero_add]
  rw [if_pos (by omega)]

theorem hexDigitChar_ne_colon (d : Nat) (h : d < 16) : hexDigitChar d ≠ ':' := by
  match d, h with
  | 0, _ => decide
  | 1, _ => decide
  | 2, _ => decide
  | 3, _ => decide
  | 4, _ => decide
  | 5, _ => decide
  | 6, _ => decide
  | 7, _ => decide
  | 8, _ => decide
  | 9, _ => decide
  | 10, _ => decide
  | 11, _ => decide
  | 12, _ => decide
  | 13, _ => decide
  | 14, _ => decide
  | 15, _ => decide
  | (n + 16), h => exact absurd h (by omega)

theorem colon_not_mem_hexFixed (w n : Nat) : ':' ∉ hexFixed w n := by
  induction w generalizing n with
  | zero => simp [hexFixed]
  | succ w ih =>
    simp only [hexFixed, List.mem_cons, not_or]
    exact ⟨fun he => hexDigitChar_ne_colon _ (Nat.mod_lt _ (by omega)) he.symm, ih _⟩

theorem hexFixed_injOn (w : Nat) :
    ∀ m n, m < 16 ^ w → n < 16 ^ w → hexFixed w m = hexFixed w n → m = n := by
  induction w with
  | zero =>
    intro m n hm hn _
    simp at hm hn
    omega
  | succ w ih =>
    intro m n hm hn h
    simp only [hexFixed, List.cons.injEq] at h
    have hd1 : m / 16 ^ w % 16 < 16 := Nat.mod_lt _ (by omega)
    have hd2 : n / 16 ^ w % 16 < 16 := Nat.mod_lt _ (by omega)
    have hdeq : m / 16 ^ w % 16 = n / 16 ^ w % 16 := by
      have hv := congrArg hexDigitVal h.1
      rw [hexDigitVal_hexDigitChar _ hd1, hexDigitVal_hexDigitChar _ hd2] at hv
      exact Option.some.inj hv
    have hmod : m % 16 ^ w = n % 16 ^ w :=
      ih _ _ (Nat.mod_lt _ (Nat.pos_pow_of_pos w (by omega)))
        (Nat.mod_lt _ (Nat.pos_pow_of_pos w (by omega))) h.2
    have hpow : (16 : Nat) ^ (w + 1) = 16 ^ w * 16 := by ring
    have hday : m / 16 ^ w < 16 := by
      rw [Nat.div_lt_iff_lt_mul (Nat.pos_pow_of_pos w (by omega))]
      omega
    have hdby : n / 16 ^ w < 16 := by
      rw [Nat.div_lt_iff_lt_mul (Nat.pos_pow_of_pos w (by omega))]
      omega
    rw [Nat.mod_eq_of_lt hday, Nat.mod_eq_of_lt hdby] at hdeq
    have h1 := Nat.div_add_mod m (16 ^ w)
    have h2 := Nat.div_add_mod n (16 ^ w)
    rw [← h1, ← h2, hdeq, hmod]

theorem lexLt_append_left (p : List Char) (x y : List Char) :
    lexLt (p ++ x) (p ++ y) = lexLt x y := by
  induction p with
  | nil => rfl
  | cons c cs ih => simp [lexLt, lt_irrefl, ih]

theorem lexLt_nil_cons (c : Char) (l : List Char) : lexLt [] (c :: l) = true := rfl

theorem lexLt_cons_nil (c : Char) (l : List Char) : lexLt (c :: l) [] = false := rfl

theorem lexLt_append_eqlen :
    ∀ (x y : List Char), x.length = y.length → ∀ u v,
      lexLt (x ++ u) (y ++ v) = (lexLt x y || ((x == y) && lexLt u v)) := by
  intro x
  induction x with
  | nil =>
    intro y hy u v
    cases y with
    | nil => simp [lexLt]
    | cons b bs => simp at hy
  | cons a as ih =>
    intro y hy u v
    cases y with
    | nil => simp at hy
    | cons b bs =>
      have hlen : as.length = bs.length := by simpa using hy
      by_cases hab : a < b
      · simp [lexLt, hab]
      · by_cases hba : b < a
        · have hne : ¬(a == b) = true := by
            simp only [beq_iff_eq]
            exact fun he => absurd (he ▸ hba) (lt_irrefl a)
          simp [lexLt, hab, hba, hne]
        · have heq : a = b := le_antisymm (le_of_not_lt hba) (le_of_not_lt hab)
          subst heq
          simp only [List.cons_append, lexLt, if_neg hab, if_neg hba]
          show lexLt (as ++ u) (bs ++ v) = _
          rw [ih bs hlen u v]
          simp [lt_irrefl]

theorem hexDigitChar_lt_iff :
    ∀ d1 ∈ List.range 16, ∀ d2 ∈ List.range 16,
      ((hexDigitChar d1 < hexDigitChar d2) ↔ d1 < d2) := by decide

theorem lexLt_hexFixed (w : Nat) :
    ∀ m n, m < 16 ^ w → n < 16 ^ w →
      lexLt (hexFixed w m) (hexFixed w n) = decide (m < n) := by
  induction w with
  | zero =>
    intro m n hm hn
    simp at hm hn
    subst hm
    subst hn
    rfl
  | succ w ih =>
    intro m n hm hn
    have hppos : 0 < 16 ^ w := Nat.pos_pow_of_pos w (by omega)
    have hd1 : m / 16 ^ w % 16 < 16 := Nat.mod_lt _ (by omega)
    have hd2 : n / 16 ^ w % 16 < 16 := Nat.mod_lt _ (by omega)
    have hpow : (16 : Nat) ^ (w + 1) = 16 ^ w * 16 := by ring
    have hqm : m / 16 ^ w < 16 := by
      rw [Nat.div_lt_iff_lt_mul hppos]
      omega
    have hqn : n / 16 ^ w < 16 := by
      rw [Nat.div_lt_iff_lt_mul hppos]
      omega
    rw [Nat.mod_eq_of_lt hqm] at hd1
    rw [Nat.mod_eq_of_lt hqn] at hd2
    have hchar := hexDigitChar_lt_iff (m / 16 ^ w % 16) (by
        rw [Nat.mod_eq_of_lt hqm]
        exact List.mem_range.mpr hqm)
      (n / 16 ^ w % 16) (by
        rw [Nat.mod_eq_of_lt hqn]
        exact List.mem_range.mpr hqn)
    simp only [hexFixed, lexLt]
    rw [Nat.mod_eq_of_lt hqm, Nat.mod_eq_of_lt hqn] at hchar ⊢
    by_cases hq : m / 16 ^ w < n / 16 ^ w
    · rw [if_pos (hchar.mpr hq)]
      exact (decide_eq_true (Nat.lt_of_div_lt_div hq)).symm
    · rw [if_neg (fun hc => hq (hchar.mp hc))]
      by_cases hq' : n / 16 ^ w < m / 16 ^ w
      · have hchar' := hexDigitChar_lt_iff (n / 16 ^ w) (List.mem_range.mpr hqn)
          (m / 16 ^ w) (List.mem_range.mpr hqm)
        rw [if_pos (hchar'.mpr hq')]
        have : ¬ m < n := fun hc => absurd (Nat.lt_of_div_lt_div hq') (by omega)
        exact (decide_eq_false this).symm
      · have hqeq : m / 16 ^ w = n / 16 ^ w := by omega
        have hchar'' := hexDigitChar_lt_iff (n / 16 ^ w) (List.mem_range.mpr hqn)
          (m / 16 ^ w) (List.mem_range.mpr hqm)
        rw [if_neg (fun hc => hq' (hchar''.mp hc))]
        show lexLt (hexFixed w (m % 16 ^ w)) (hexFixed w (n % 16 ^ w)) = _
        rw [ih (m % 16 ^ w) (n % 16 ^ w) (Nat.mod_lt _ hppos) (Nat.mod_lt _ hppos)]
        have h1 := Nat.div_add_mod m (16 ^ w)
        have h2 := Nat.div_add_mod n (16 ^ w)
        rw [hqeq] at h1
        simp only [decide_eq_decide]
        omega

theorem beq_hexFixed (w m n : Nat) (hm : m < 16 ^ w) (hn : n < 16 ^ w) :
    (hexFixed w m == hexFixed w n) = decide (m = n) := by
  by_cases h : m = n
  · subst h
    simp
  · have hne : hexFixed w m ≠ hexFixed w n := fun he => h (hexFixed_injOn w m n hm hn he)
    simp [hne, h]

theorem splitChar_append_sep (sep : Char) (a b : List Char) :
    splitChar sep (a ++ sep :: b) = splitChar sep a ++ splitChar sep b := by
  induction a with
  | nil => simp [splitChar]
  | cons c as ih =>
    have ih' : splitChar sep (as.append (sep :: b)) = splitChar sep as ++ splitChar sep b := ih
    by_cases hc : c = sep
    · simp only [List.cons_append, splitChar, if_pos hc]
      rw [ih']
    · simp only [List.cons_append, splitChar, if_neg hc]
      rw [ih']
      cases hsa : splitChar sep as with
      | nil => exact absurd hsa (splitChar_ne_nil sep as)
      | cons h t => simp

theorem splitChar_no_sep (sep : Char) (l : List Char) (h : sep ∉ l) :
    splitChar sep l = [l] := by
  induction l with
  | nil => rfl
  | cons c rest ih =>
    have hc : c ≠ sep := fun he => h (he ▸ List.mem_cons_self c rest)
    have hr : sep ∉ rest := fun hm => h (List.mem_cons_of_mem c hm)
    simp only [splitChar, if_neg hc, ih hr]

theorem joinColon_splitChar (l : List Char) : joinColon (splitChar ':' l) = l := by
  induction l with
  | nil => rfl
  | cons c rest ih =>
    by_cases hc : c = ':'
    · simp only [splitChar, if_pos hc]
      cases hsr : splitChar ':' rest with
      | nil => exact absurd hsr (splitChar_ne_nil ':' rest)
      | cons h t =>
        rw [hsr] at ih
        simp only [joinColon, hc]
        rw [ih]
        simp
    · simp only [splitChar, if_neg hc]
      cases hsr : splitChar ':' rest with
      | nil => exact absurd hsr (splitChar_ne_nil ':' rest)
      | cons h t =>
        rw [hsr] at ih
        cases t with
        | nil =>
          simp only [joinColon] at ih ⊢
          rw [ih]
        | cons t0 ts =>
          simp only [joinColon] at ih ⊢
          rw [← ih]
          simp

theorem pow16_8 : (16 : Nat) ^ 8 = 2 ^ 32 := by norm_num

theorem explode_rowKeyOf (tableKey : String) (bn : Nat) (pk : String)
    (hbn : bn < 2 ^ 32) (hpk : ':' ∉ pk.data) :
    explodeWritableRowKey (rowKeyOf tableKey bn pk)
      = .ok (tableKey.data, bn, pk.data) := by
  have hsplit : splitChar ':' (rowKeyOf tableKey bn pk)
      = splitChar ':' tableKey.data ++ [HexBlockNum bn] ++ [pk.data] := by
    unfold rowKeyOf
    rw [splitChar_append_sep, splitChar_append_sep]
    rw [splitChar_no_sep ':' (HexBlockNum bn) (colon_not_mem_hexFixed 8 bn),
      splitChar_no_sep ':' pk.data hpk]
    simp
  unfold explodeWritableRowKey
  rw [hsplit]
  cases htk : splitChar ':' tableKey.data with
  | nil => exact absurd htk (splitChar_ne_nil ':' tableKey.data)
  | cons c0 crest =>
    have hrev : ((c0 :: crest) ++ [HexBlockNum bn] ++ [pk.data]).reverse
        = pk.data :: HexBlockNum bn :: (c0 :: crest).reverse := by
      simp
    rw [hrev]
    cases hrevc : (c0 :: crest).reverse with
    | nil => simp at hrevc
    | cons d0 drest =>
      simp only
      have hp : parseUintHex (HexBlockNum bn) 32 = some bn :=
        parseUintHex_hexFixed 8 32 bn (by omega) (pow16_8 ▸ hbn) (le_of_eq pow16_8)
      rw [hp]
      simp only
      congr 1
      have : (d0 :: drest).reverse = c0 :: crest := by
        rw [← hrevc, List.reverse_reverse]
      rw [this, ← htk, joinColon_splitChar]

theorem lexLt_cons_cons (c : Char) (x y : List Char) :
    lexLt (c :: x) (c :: y) = lexLt x y := by
  simp [lexLt, lt_irrefl]

theorem length_HexBlockNum (n : Nat) : (HexBlockNum n).length = 8 :=
  length_hexFixed 8 n

theorem lexLt_scanKey_rowKey (tk : String) (a bn : Nat) (pk : String)
    (ha : a < 2 ^ 32) (hbn : bn < 2 ^ 32) :
    lexLt (tk.data ++ ':' :: HexBlockNum a) (rowKeyOf tk bn pk)
      = (decide (a < bn) || decide (a = bn)) := by
  have ha' : a < 16 ^ 8 := pow16_8 ▸ ha
  have hbn' : bn < 16 ^ 8 := pow16_8 ▸ hbn
  unfold rowKeyOf
  rw [lexLt_append_left, lexLt_cons_cons]
  have heqlen := lexLt_append_eqlen (HexBlockNum a) (HexBlockNum bn)
    (by rw [length_HexBlockNum, length_HexBlockNum]) [] (':' :: pk.data)
  rw [List.append_nil] at heqlen
  rw [heqlen]
  have hlt8 : lexLt (HexBlockNum a) (HexBlockNum bn) = decide (a < bn) :=
    lexLt_hexFixed 8 a bn ha' hbn'
  have hbeq : (HexBlockNum a == HexBlockNum bn) = decide (a = bn) :=
    beq_hexFixed 8 a bn ha' hbn'
  rw [hlt8, hbeq, lexLt_nil_cons]
  simp

theorem lexLt_rowKey_scanKey (tk : String) (b bn : Nat) (pk : String)
    (hb : b < 2 ^ 32) (hbn : bn < 2 ^ 32) :
    lexLt (rowKeyOf tk bn pk) (tk.data ++ ':' :: HexBlockNum b) = decide (bn < b) := by
  have hb' : b < 16 ^ 8 := pow16_8 ▸ hb
  have hbn' : bn < 16 ^ 8 := pow16_8 ▸ hbn
  unfold rowKeyOf
  rw [lexLt_append_left, lexLt_cons_cons]
  have heqlen := lexLt_append_eqlen (HexBlockNum bn) (HexBlockNum b)
    (by rw [length_HexBlockNum, length_HexBlockNum]) (':' :: pk.data) []
  rw [List.append_nil] at heqlen
  rw [heqlen]
  have hlt8 : lexLt (HexBlockNum bn) (HexBlockNum b) = decide (bn < b) :=
    lexLt_hexFixed 8 bn b hbn' hb'
  rw [hlt8, lexLt_cons_nil]
  simp

theorem beq_scanKey_rowKey (tk : String) (a bn : Nat) (pk : String) :
    ((tk.data ++ ':' :: HexBlockNum a) == rowKeyOf tk bn pk) = false := by
  rw [beq_eq_false_iff_ne]
  intro he
  have hlen := congrArg List.length he
  simp only [rowKeyOf, List.length_append, List.length_cons, length_HexBlockNum] at hlen
  omega

theorem lexLe_scanKey_rowKey (tk : String) (a bn : Nat) (pk : String)
    (ha : a < 2 ^ 32) (hbn : bn < 2 ^ 32) :
    lexLe (tk.data ++ ':' :: HexBlockNum a) (rowKeyOf tk bn pk) = decide (a ≤ bn) := by
  unfold lexLe
  rw [lexLt_scanKey_rowKey tk a bn pk ha hbn, beq_scanKey_rowKey]
  by_cases h1 : a < bn
  · simp [h1, Nat.le_of_lt h1]
  · by_cases h2 : a = bn
    · simp [h1, h2]
    · simp [h1, h2]
      omega

theorem scan_eq_logical_filter (tk : String) (rows : List LogicalRow) (store : Store)
    (hrows : store.tabletRows = rows.map (storeRowOf tk))
    (a b : Nat) (ha : a < 2 ^ 32) (hb : b < 2 ^ 32)
    (hbn : ∀ l ∈ rows, l.bn < 2 ^ 32) :
    ScanTabletRows store (tk.data ++ ':' :: HexBlockNum a) (tk.data ++ ':' :: HexBlockNum b)
      = (rows.filter (fun l => decide (a ≤ l.bn) && decide (l.bn < b))).map (storeRowOf tk) := by
  unfold ScanTabletRows
  rw [hrows, List.filter_map]
  congr 1
  apply List.filter_congr
  intro l hl
  simp only [Function.comp, storeRowOf]
  rw [lexLe_scanKey_rowKey tk a l.bn l.pk ha (hbn l hl),
    lexLt_rowKey_scanKey tk b l.bn l.pk hb (hbn l hl)]

theorem applyRows_map_storeRowOf (tk : String) :
    ∀ (ls : List LogicalRow) (m : List (String × Nat)),
      (∀ l ∈ ls, l.bn < 2 ^ 32) → (∀ l ∈ ls, ':' ∉ l.pk.data) →
      applyRows m (ls.map (storeRowOf tk)) = .ok (applyLogicalRows m ls) := by
  intro ls
  induction ls with
  | nil =>
    intro m _ _
    rfl
  | cons l rest ih =>
    intro m hbn hpk
    have he : explodeWritableRowKey (storeRowOf tk l).key = .ok (tk.data, l.bn, l.pk.data) :=
      explode_rowKeyOf tk l.bn l.pk (hbn l (by simp)) (hpk l (by simp))
    simp only [List.map_cons, applyRows, he]
    exact ih _ (fun q hq => hbn q (by simp [hq])) (fun q hq => hpk q (by simp [hq]))

/-- C6 (counterexample to "starts from the latest persisted snapshot"): with
a cached index at block 5 and a persisted snapshot at block 7, building
`ts:a` at block 9 starts from the cache: it scans blocks 6..9 (two rows,
squelched 2, including the block-6 row), while the latest persisted snapshot
at or before 9 sits at block 7, from which the claim's scan 8..9 covers one
row only. -/
theorem C6_cached_index_beats_persisted_counterexample :
    indexOneTable [("ts:a", { AtBlockNum := 5, Squelched := 0, Map := [] })]
        { tabletRows := [storeRowOf "ts:a" { bn := 6, pk := "0000000000000001", value := [1] },
                         storeRowOf "ts:a" { bn := 8, pk := "0000000000000002", value := [1] }]
          indexRows := [{ key := "ts:a:".data ++ HexRevBlockNum 7
                          value := [0, 0, 0, 0, 0, 0, 0, 0, 0, 0, 0, 0, 0, 0, 0, 0] }] }
        "ts:a" 9
      = .ok { AtBlockNum := 9, Squelched := 2,
              Map := [("0000000000000001", 6), ("0000000000000002", 8)] } ∧
    getIndex
        { tabletRows := [storeRowOf "ts:a" { bn := 6, pk := "0000000000000001", value := [1] },
                         storeRowOf "ts:a" { bn := 8, pk := "0000000000000002", value := [1] }]
          indexRows := [{ key := "ts:a:".data ++ HexRevBlockNum 7
                          value := [0, 0, 0, 0, 0, 0, 0, 0, 0, 0, 0, 0, 0, 0, 0, 0] }] }
        "ts:a" 9
      = .ok (some { AtBlockNum := 7, Squelched := 0, Map := [] }) ∧
    (ScanTabletRows
        { tabletRows := [storeRowOf "ts:a" { bn := 6, pk := "0000000000000001", value := [1] },
                         storeRowOf "ts:a" { bn := 8, pk := "0000000000000002", value := [1] }]
          indexRows := [{ key := "ts:a:".data ++ HexRevBlockNum 7
                          value := [0, 0, 0, 0, 0, 0, 0, 0, 0, 0, 0, 0, 0, 0, 0, 0] }] }
        ("ts:a".data ++ ':' :: HexBlockNum (7 + 1))
        ("ts:a".data ++ ':' :: HexBlockNum (9 + 1))).length = 1 ∧
    (2 : Nat) ≠ 1 := by
  refine ⟨by rfl, by rfl, by rfl, by decide⟩

/-- C6 (amended: the build starts from the cached in-memory index when one is
present, else the latest persisted snapshot at or before N, else empty): from
starting index S, the build scans exactly the tablet's rows with block num in
[S.at_block+1, N], folds them into S's map (assign on non-tombstone, delete
on tombstone, in scan order), and returns AtBlockNum = N with Squelched = the
number of rows scanned. -/
theorem C6_indexOneTable_build (cache : List (String × TableIndex)) (store : Store)
    (tableKey : String) (blockNum : Nat) (S : TableIndex) (rows : List LogicalRow)
    (hS : indexStartingPoint cache store tableKey blockNum = .ok S)
    (hrows : store.tabletRows = rows.map (storeRowOf tableKey))
    (hbn : ∀ l ∈ rows, l.bn < 2 ^ 32)
    (hpk : ∀ l ∈ rows, ':' ∉ l.pk.data)
    (hat : S.AtBlockNum + 1 < 2 ^ 32) (hN : blockNum + 1 < 2 ^ 32)
    (hcount : (rows.filter (fun l =>
      decide (S.AtBlockNum + 1 ≤ l.bn) && decide (l.bn ≤ blockNum))).length < 2 ^ 32) :
    indexOneTable cache store tableKey blockNum
      = .ok { AtBlockNum := blockNum,
              Squelched := (rows.filter (fun l =>
                decide (S.AtBlockNum + 1 ≤ l.bn) && decide (l.bn ≤ blockNum))).length,
              Map := applyLogicalRows S.Map (rows.filter (fun l =>
                decide (S.AtBlockNum + 1 ≤ l.bn) && decide (l.bn ≤ blockNum))) } := by
  unfold indexOneTable
  simp only [hS]
  have hscan := scan_eq_logical_filter tableKey rows store hrows
    (S.AtBlockNum + 1) (blockNum + 1) hat hN hbn
  have hpred : (fun (l : LogicalRow) => decide (S.AtBlockNum + 1 ≤ l.bn) && decide (l.bn < blockNum + 1))
      = (fun (l : LogicalRow) => decide (S.AtBlockNum + 1 ≤ l.bn) && decide (l.bn ≤ blockNum)) := by
    funext l
    congr 1
    simp only [decide_eq_decide]
    omega
  rw [hpred] at hscan
  rw [hscan]
  rw [applyRows_map_storeRowOf tableKey _ S.Map
    (fun q hq => hbn q (List.mem_of_mem_filter hq))
    (fun q hq => hpk q (List.mem_of_mem_filter hq))]
  simp only [List.length_map]
  rw [Nat.mod_eq_of_lt hcount]

theorem C6_indexOneTable_build_witness :
    indexStartingPoint []
        { tabletRows := [storeRowOf "ts:a" { bn := 1, pk := "0000000000000001", value := [7] },
                         storeRowOf "ts:a" { bn := 2, pk := "0000000000000001", value := [] }]
          indexRows := [] } "ts:a" 5
      = .ok NewTableIndex ∧
    indexOneTable []
        { tabletRows := [storeRowOf "ts:a" { bn := 1, pk := "0000000000000001", value := [7] },
                         storeRowOf "ts:a" { bn := 2, pk := "0000000000000001", value := [] }]
          indexRows := [] } "ts:a" 5
      = .ok { AtBlockNum := 5,
              Squelched := (([{ bn := 1, pk := "0000000000000001", value := [7] },
                { bn := 2, pk := "0000000000000001", value := [] }] : List LogicalRow).filter
                  (fun l => decide (NewTableIndex.AtBlockNum + 1 ≤ l.bn)
                    && decide (l.bn ≤ 5))).length,
              Map := applyLogicalRows NewTableIndex.Map
                (([{ bn := 1, pk := "0000000000000001", value := [7] },
                  { bn := 2, pk := "0000000000000001", value := [] }] : List LogicalRow).filter
                  (fun l => decide (NewTableIndex.AtBlockNum + 1 ≤ l.bn)
                    && decide (l.bn ≤ 5))) } :=
  ⟨by rfl,
   C6_indexOneTable_build []
     { tabletRows := [storeRowOf "ts:a" { bn := 1, pk := "0000000000000001", value := [7] },
                      storeRowOf "ts:a" { bn := 2, pk := "0000000000000001", value := [] }]
       indexRows := [] } "ts:a" 5 NewTableIndex
     [{ bn := 1, pk := "0000000000000001", value := [7] },
      { bn := 2, pk := "0000000000000001", value := [] }]
     (by rfl) (by rfl) (by decide) (by decide) (by decide) (by decide) (by decide)⟩

theorem assocGet_map_set_self {α : Type} (m : List (String × α)) (k : String) (v : α) :
    assocGet (m.map (fun p => if p.1 = k then (k, v) else p)) k
      = if k ∈ m.map Prod.fst then some v else none := by
  induction m with
  | nil => simp [assocGet]
  | cons p rest ih =>
    by_cases hp : p.1 = k
    · simp only [List.map_cons, if_pos hp, assocGet, if_pos rfl]
      simp [hp]
    · simp only [List.map_cons, if_neg hp, assocGet, if_neg hp, ih]
      have hkp : ¬k = p.1 := fun he => hp he.symm
      by_cases hk : k ∈ rest.map Prod.fst
      · simp [List.mem_cons, hk]
      · simp [List.mem_cons, hk, hkp]

theorem assocGet_map_set_ne {α : Type} (m : List (String × α)) (k : String) (v : α)
    (q : String) (hq : q ≠ k) :
    assocGet (m.map (fun p => if p.1 = k then (k, v) else p)) q = assocGet m q := by
  induction m with
  | nil => rfl
  | cons p rest ih =>
    by_cases hp : p.1 = k
    · have h1 : ¬(k = q) := fun he => hq he.symm
      have h2 : ¬(p.1 = q) := fun he => hq (he.symm.trans hp)
      simp only [List.map_cons, if_pos hp, assocGet, if_neg h1, if_neg h2, ih]
    · simp only [List.map_cons, if_neg hp, assocGet, ih]

theorem assocGet_append {α : Type} (m m' : List (String × α)) (k : String) :
    assocGet (m ++ m') k
      = match assocGet m k with
        | some v => some v
        | none => assocGet m' k := by
  induction m with
  | nil => simp [assocGet]
  | cons p rest ih =>
    by_cases hp : p.1 = k
    · simp [assocGet, hp]
    · simp [assocGet, hp, ih]

theorem assocGet_eq_none_of_not_mem {α : Type} (m : List (String × α)) (k : String)
    (h : k ∉ m.map Prod.fst) : assocGet m k = none := by
  induction m with
  | nil => rfl
  | cons p rest ih =>
    have hp : ¬(p.1 = k) := fun he => h (by simp [he])
    simp only [assocGet, if_neg hp]
    exact ih (fun hm => h (by simp [hm]))

theorem assocGet_listMapSet_self {α : Type} (m : List (String × α)) (k : String) (v : α) :
    assocGet (listMapSet m k v) k = some v := by
  unfold listMapSet
  by_cases hmem : k ∈ m.map Prod.fst
  · rw [if_pos hmem, assocGet_map_set_self, if_pos hmem]
  · rw [if_neg hmem, assocGet_append, assocGet_eq_none_of_not_mem m k hmem]
    simp [assocGet]

theorem assocGet_listMapSet_ne {α : Type} (m : List (String × α)) (k : String) (v : α)
    (q : String) (hq : q ≠ k) : assocGet (listMapSet m k v) q = assocGet m q := by
  unfold listMapSet
  by_cases hmem : k ∈ m.map Prod.fst
  · rw [if_pos hmem, assocGet_map_set_ne m k v q hq]
  · rw [if_neg hmem, assocGet_append]
    have : assocGet [(k, v)] q = none := by
      have hkq : ¬k = q := fun he => hq he.symm
      simp only [assocGet, if_neg hkq]
    rw [this]
    cases assocGet m q <;> rfl

theorem listMapDelete_cons_self {α : Type} (t : String) (v : α) (rest : List (String × α))
    (h : t ∉ rest.map Prod.fst) : listMapDelete ((t, v) :: rest) t = rest := by
  unfold listMapDelete
  rw [List.filter_cons, if_neg (by simp)]
  apply List.filter_eq_self.mpr
  intro p hp
  exact decide_eq_true (fun he => h (he ▸ List.mem_map_of_mem Prod.fst hp))

theorem indexOneTable_cache_congr (c1 c2 : List (String × TableIndex)) (store : Store)
    (t : String) (bn : Nat) (h : assocGet c1 t = assocGet c2 t) :
    indexOneTable c1 store t bn = indexOneTable c2 store t bn := by
  unfold indexOneTable indexStartingPoint
  rw [h]

theorem IndexTablesLoop_post (store : Store) :
    ∀ (sched : List (String × Nat)) (st : IndexCacheState)
      (batch0 : List (List Char × List Nat)) (st' : IndexCacheState)
      (batch' : List (List Char × List Nat)),
      (sched.map Prod.fst).Nodup →
      st.scheduleIndexing = sched →
      IndexTablesLoop store sched st batch0 = .ok (st', batch') →
      st'.scheduleIndexing = [] ∧
      (∀ q, q ∉ sched.map Prod.fst →
        assocGet st'.lastCounters q = assocGet st.lastCounters q ∧
        assocGet st'.lastIndexes q = assocGet st.lastIndexes q) ∧
      ∀ p ∈ sched,
        assocGet st'.lastCounters p.1 = some 0 ∧
        ∃ idx, indexOneTable st.lastIndexes store p.1 p.2 = .ok idx ∧
          assocGet st'.lastIndexes p.1 = some idx := by
  intro sched
  induction sched with
  | nil =>
    intro st batch0 st' batch' _ hsch hok
    simp only [IndexTablesLoop, Except.ok.injEq, Prod.mk.injEq] at hok
    obtain ⟨hst, _⟩ := hok
    subst hst
    exact ⟨hsch, fun q _ => ⟨rfl, rfl⟩, fun p hp => absurd hp (by simp)⟩
  | cons p rest ih =>
    intro st batch0 st' batch' hnodup hsch hok
    obtain ⟨t, bn⟩ := p
    have hnodup' : (rest.map Prod.fst).Nodup :=
      (List.nodup_cons.mp (by simpa using hnodup)).2
    have htnotin : t ∉ rest.map Prod.fst :=
      (List.nodup_cons.mp (by simpa using hnodup)).1
    simp only [IndexTablesLoop] at hok
    cases h1 : indexOneTable st.lastIndexes store t bn with
    | error e =>
      simp only [h1] at hok
      exact absurd hok (by simp)
    | ok idx =>
      simp only [h1] at hok
      cases h2 : idx.MarshalBinary t with
      | error e =>
        simp only [h2] at hok
        exact absurd hok (by simp)
      | ok snapshot =>
        simp only [h2] at hok
        have hsch₁ : (IndexCacheState.mk (listMapSet st.lastIndexes t idx)
            (listMapSet st.lastCounters t 0)
            (listMapDelete st.scheduleIndexing t)).scheduleIndexing = rest := by
          show listMapDelete st.scheduleIndexing t = rest
          rw [hsch]
          exact listMapDelete_cons_self t bn rest htnotin
        obtain ⟨hempty, hframe, hall⟩ := ih _ _ st' batch' hnodup' hsch₁ hok
        refine ⟨hempty, ?_, ?_⟩
        · intro q hq
          have hq' : q ∉ rest.map Prod.fst := fun h => hq (by simp [h])
          have hqt : q ≠ t := fun h => hq (by simp [h])
          obtain ⟨hc, hi⟩ := hframe q hq'
          refine ⟨?_, ?_⟩
          · rw [hc]
            exact assocGet_listMapSet_ne _ _ _ _ hqt
          · rw [hi]
            exact assocGet_listMapSet_ne _ _ _ _ hqt
        · intro p hp
          rcases List.mem_cons.mp hp with heq | hmem
          · obtain ⟨hc, hi⟩ := hframe t htnotin
            subst heq
            refine ⟨?_, idx, h1, ?_⟩
            · rw [hc]
              exact assocGet_listMapSet_self _ _ _
            · rw [hi]
              exact assocGet_listMapSet_self _ _ _
          · obtain ⟨hcnt, idx', hbuild, hcache⟩ := hall p hmem
            have hne : p.1 ≠ t :=
              fun h => htnotin (h ▸ List.mem_map_of_mem Prod.fst hmem)
            refine ⟨hcnt, idx', ?_, hcache⟩
            rw [indexOneTable_cache_congr st.lastIndexes
              (listMapSet st.lastIndexes t idx) store p.1 p.2
              (assocGet_listMapSet_ne _ _ _ _ hne).symm]
            exact hbuild

/-- C10: a successful `IndexTables` run leaves the indexing schedule empty
and, for every table that was scheduled on entry, caches exactly the freshly
built index for that table and resets its mutation counter to zero. -/
theorem C10_IndexTables_postconditions (st : IndexCacheState) (store : Store)
    (st' : IndexCacheState) (batch : List (List Char × List Nat))
    (hnodup : (st.scheduleIndexing.map Prod.fst).Nodup)
    (hok : IndexTables st store = .ok (st', batch)) :
    st'.scheduleIndexing = [] ∧
    ∀ p ∈ st.scheduleIndexing,
      assocGet st'.lastCounters p.1 = some 0 ∧
      ∃ idx, indexOneTable st.lastIndexes store p.1 p.2 = .ok idx ∧
        assocGet st'.lastIndexes p.1 = some idx := by
  obtain ⟨h1, _, h3⟩ := IndexTablesLoop_post store st.scheduleIndexing st [] st' batch
    hnodup rfl hok
  exact ⟨h1, h3⟩

theorem C10_IndexTables_postconditions_witness :
    ((([("ts:a", 5)] : List (String × Nat)).map Prod.fst).Nodup) ∧
    IndexTables
        { lastIndexes := [], lastCounters := [("ts:a", 1500)],
          scheduleIndexing := [("ts:a", 5)] }
        { tabletRows := [storeRowOf "ts:a" { bn := 1, pk := "0000000000000001", value := [7] },
                         storeRowOf "ts:a" { bn := 2, pk := "0000000000000001", value := [] }]
          indexRows := [] }
      = .ok ({ lastIndexes := [("ts:a", { AtBlockNum := 5, Squelched := 2, Map := [] })]
               lastCounters := [("ts:a", 0)]
               scheduleIndexing := [] },
             [("ts:a:fffffffa".data,
               [0, 0, 0, 2, 0, 0, 0, 0, 0, 0, 0, 0, 0, 0, 0, 0])]) ∧
    ({ lastIndexes := [("ts:a", { AtBlockNum := 5, Squelched := 2, Map := [] })]
       lastCounters := [("ts:a", 0)]
       scheduleIndexing := [] } : IndexCacheState).scheduleIndexing = ([] : List (String × Nat)) :=
  ⟨by decide, by rfl,
   (C10_IndexTables_postconditions
     { lastIndexes := [], lastCounters := [("ts:a", 1500)],
       scheduleIndexing := [("ts:a", 5)] }
     { tabletRows := [storeRowOf "ts:a" { bn := 1, pk := "0000000000000001", value := [7] },
                      storeRowOf "ts:a" { bn := 2, pk := "0000000000000001", value := [] }]
       indexRows := [] }
     { lastIndexes := [("ts:a", { AtBlockNum := 5, Squelched := 2, Map := [] })]
       lastCounters := [("ts:a", 0)]
       scheduleIndexing := [] }
     [("ts:a:fffffffa".data, [0, 0, 0, 2, 0, 0, 0, 0, 0, 0, 0, 0, 0, 0, 0, 0])]
     (by decide) (by rfl)).1⟩

theorem emitReady_spec (C : List Nat) :
    ∀ (fuel k next : Nat), k ≤ fuel →
      (∀ i, i < k → next + i ∈ C) → next + k ∉ C →
      emitReady C fuel next = (next + k, List.range' next k) := by
  intro fuel
  induction fuel with
  | zero =>
    intro k next hk _ hout
    have : k = 0 := by omega
    subst this
    simp [emitReady]
  | succ f ih =>
    intro k next hk hin hout
    cases k with
    | zero =>
      have : next ∉ C := by simpa using hout
      simp [emitReady, this]
    | succ j =>
      have hmem : next ∈ C := by simpa using hin 0 (by omega)
      have hr : emitReady C f (next + 1) = ((next + 1) + j, List.range' (next + 1) j) := by
        apply ih j (next + 1) (by omega)
        · intro i hi
          have := hin (i + 1) (by omega)
          simpa [Nat.add_assoc, Nat.add_comm 1 i] using this
        · have : next + (j + 1) = (next + 1) + j := by omega
          rw [← this]
          exact hout
      simp only [emitReady, if_pos hmem, hr]
      have h1 : next + 1 + j = next + (j + 1) := by omega
      rw [h1, List.range'_succ]

theorem nailerRun_complete (n : Nat) :
    ∀ (schedule C : List Nat) (next : Nat),
      (∀ j ∈ schedule, j < n) → (∀ c ∈ C, c < n) →
      (∀ j ∈ schedule, j ∉ C) → schedule.Nodup →
      (∀ k, k < n → k ∈ C ∨ k ∈ schedule) →
      (∀ k, k < next → k ∈ C) → next ∉ C →
      nailerRun n schedule C next = List.range' next (n - next) := by
  intro schedule
  induction schedule with
  | nil =>
    intro C next _ hC _ _ hcov hbelow hnext
    have h1 : next ≤ n := by
      by_contra h
      push_neg at h
      exact absurd (hC n (hbelow n h)) (lt_irrefl n)
    have h2 : n ≤ next := by
      by_contra h
      push_neg at h
      rcases hcov next h with hc | hs
      · exact hnext hc
      · simp at hs
    have : next = n := le_antisymm h1 h2
    rw [this, Nat.sub_self]
    rfl
  | cons j rest ih =>
    intro C next hs hC hdisj hnodup hcov hbelow hnext
    have hjn : j < n := hs j (by simp)
    have hnle : next ≤ n := by
      by_contra h
      push_neg at h
      exact absurd (hC n (hbelow n h)) (lt_irrefl n)
    have hCp : ∀ c ∈ j :: C, c < n := by
      intro c hc
      rcases List.mem_cons.mp hc with h | h
      · exact h ▸ hjn
      · exact hC c h
    have hex : ∃ m, next + m ∉ (j :: C) := by
      refine ⟨n - next, fun hmem => ?_⟩
      have : next + (n - next) = n := by omega
      rw [this] at hmem
      exact absurd (hCp n hmem) (lt_irrefl n)
    have hk0 : next + Nat.find hex ∉ (j :: C) := Nat.find_spec hex
    have hmin : ∀ i, i < Nat.find hex → next + i ∈ (j :: C) := by
      intro i hi
      exact not_not.mp (Nat.find_min hex hi)
    have hkle : Nat.find hex ≤ n - next := by
      apply Nat.find_le
      intro hmem
      have heq : next + (n - next) = n := by omega
      rw [heq] at hmem
      exact absurd (hCp n hmem) (lt_irrefl n)
    have hemit : emitReady (j :: C) n next
        = (next + Nat.find hex, List.range' next (Nat.find hex)) :=
      emitReady_spec (j :: C) n (Nat.find hex) next (by omega) hmin hk0
    have hrec : nailerRun n rest (j :: C) (next + Nat.find hex)
        = List.range' (next + Nat.find hex) (n - (next + Nat.find hex)) := by
      apply ih (j :: C) (next + Nat.find hex)
      · intro q hq
        exact hs q (List.mem_cons_of_mem j hq)
      · exact hCp
      · intro q hq
        intro hqmem
        rcases List.mem_cons.mp hqmem with h | h
        · exact (List.nodup_cons.mp hnodup).1 (h ▸ hq)
        · exact hdisj q (List.mem_cons_of_mem j hq) h
      · exact (List.nodup_cons.mp hnodup).2
      · intro k hk
        rcases hcov k hk with h | h
        · exact Or.inl (List.mem_cons_of_mem j h)
        · rcases List.mem_cons.mp h with h | h
          · exact Or.inl (h ▸ List.mem_cons_self j C)
          · exact Or.inr h
      · intro k hk
        by_cases hkn : k < next
        · exact List.mem_cons_of_mem j (hbelow k hkn)
        · have : k = next + (k - next) := by omega
          rw [this]
          exact hmin (k - next) (by omega)
      · exact hk0
    show (emitReady (j :: C) n next).2
        ++ nailerRun n rest (j :: C) (emitReady (j :: C) n next).1
        = List.range' next (n - next)
    rw [hemit]
    simp only []
    rw [hrec, List.range'_append_1]
    congr 1
    omega

theorem nailerOutput_complete (n : Nat) (schedule : List Nat)
    (hperm : schedule.Perm (List.range n)) :
    nailerOutput n schedule = List.range n := by
  show nailerRun n schedule [] 0 = List.range n
  rw [nailerRun_complete n schedule [] 0]
  · rw [Nat.sub_zero, List.range_eq_range']
  · intro j hj
    exact List.mem_range.mp (hperm.mem_iff.mp hj)
  · intro c hc
    simp at hc
  · intro j _ hj
    simp at hj
  · exact hperm.nodup_iff.mpr (List.nodup_range n)
  · intro k hk
    exact Or.inr (hperm.mem_iff.mpr (List.mem_range.mpr hk))
  · intro k hk
    omega
  · simp

theorem lexLt_trans : ∀ (x y z : List Char),
    lexLt x y = true → lexLt y z = true → lexLt x z = true := by
  intro x
  induction x with
  | nil =>
    intro y z hxy hyz
    cases y with
    | nil => simp [lexLt] at hxy
    | cons b bs =>
      cases z with
      | nil => simp [lexLt] at hyz
      | cons c cs => rfl
  | cons a as ih =>
    intro y z hxy hyz
    cases y with
    | nil => simp [lexLt] at hxy
    | cons b bs =>
      cases z with
      | nil => simp [lexLt] at hyz
      | cons c cs =>
        simp only [lexLt] at hxy hyz ⊢
        by_cases hab : a < b
        · by_cases hbc : b < c
          · rw [if_pos (lt_trans hab hbc)]
          · by_cases hcb : c < b
            · simp [hbc, hcb] at hyz
            · have hbceq : b = c := le_antisymm (le_of_not_lt hcb) (le_of_not_lt hbc)
              rw [if_pos (hbceq ▸ hab)]
        · by_cases hba : b < a
          · simp [hab, hba] at hxy
          · have habeq : a = b := le_antisymm (le_of_not_lt hba) (le_of_not_lt hab)
            subst habeq
            simp only [lt_irrefl, if_neg (lt_irrefl _)] at hxy
            by_cases hac : a < c
            · rw [if_pos hac]
            · by_cases hca : c < a
              · simp [hac, hca] at hyz
              · simp only [if_neg hac, if_neg hca] at hyz ⊢
                exact ih bs cs hxy hyz

theorem lexLt_total_or : ∀ (x y : List Char),
    lexLt x y = true ∨ lexLt y x = true ∨ x = y := by
  intro x
  induction x with
  | nil =>
    intro y
    cases y with
    | nil => exact Or.inr (Or.inr rfl)
    | cons b bs => exact Or.inl rfl
  | cons a as ih =>
    intro y
    cases y with
    | nil => exact Or.inr (Or.inl rfl)
    | cons b bs =>
      rcases lt_trichotomy a b with h | h | h
      · left
        simp [lexLt, h]
      · subst h
        rcases ih bs with h1 | h1 | h1
        · left
          simp [lexLt, lt_irrefl, h1]
        · right
          left
          simp [lexLt, lt_irrefl, h1]
        · right
          right
          rw [h1]
      · right
        left
        simp [lexLt, h]

theorem contractLe_total (a b : String) :
    contractLe a b = true ∨ contractLe b a = true := by
  unfold contractLe lexLe
  rcases lexLt_total_or a.data b.data with h | h | h
  · left
    simp [h]
  · right
    simp [h]
  · left
    simp [h]

theorem contractLe_trans (a b c : String)
    (h1 : contractLe a b = true) (h2 : contractLe b c = true) :
    contractLe a c = true := by
  unfold contractLe lexLe at h1 h2 ⊢
  simp only [Bool.or_eq_true, beq_iff_eq] at h1 h2 ⊢
  rcases h1 with h1 | h1
  · rcases h2 with h2 | h2
    · exact Or.inl (lexLt_trans _ _ _ h1 h2)
    · exact Or.inl (h2 ▸ h1)
  · rcases h2 with h2 | h2
    · exact Or.inl (h1 ▸ h2)
    · exact Or.inr (h1.trans h2)

theorem insertContract_perm (a : String) (l : List String) :
    (insertContract a l).Perm (a :: l) := by
  induction l with
  | nil => exact List.Perm.refl _
  | cons b t ih =>
    simp only [insertContract]
    by_cases h : contractLe a b = true
    · rw [if_pos h]
    · rw [if_neg h]
      exact (ih.cons b).trans (List.Perm.swap a b t)

theorem sortContracts_perm (l : List String) : (sortContracts l).Perm l := by
  induction l with
  | nil => exact List.Perm.refl _
  | cons a t ih =>
    exact (insertContract_perm a (sortContracts t)).trans (ih.cons a)

theorem insertContract_pairwise (a : String) :
    ∀ (l : List String), l.Pairwise (fun x y => contractLe x y = true) →
      (insertContract a l).Pairwise (fun x y => contractLe x y = true) := by
  intro l
  induction l with
  | nil =>
    intro _
    simp [insertContract]
  | cons b t ih =>
    intro h
    rcases List.pairwise_cons.mp h with ⟨hb, ht⟩
    simp only [insertContract]
    by_cases hab : contractLe a b = true
    · rw [if_pos hab]
      refine List.pairwise_cons.mpr ⟨?_, h⟩
      intro x hx
      rcases List.mem_cons.mp hx with hx | hx
      · exact hx ▸ hab
      · exact contractLe_trans a b x hab (hb x hx)
    · rw [if_neg hab]
      refine List.pairwise_cons.mpr ⟨?_, ih ht⟩
      intro x hx
      have hx' : x ∈ a :: t := (insertContract_perm a t).mem_iff.mp hx
      rcases List.mem_cons.mp hx' with hx' | hx'
      · rw [hx']
        rcases contractLe_total a b with h' | h'
        · exact absurd h' hab
        · exact h'
      · exact hb x hx'

theorem sortContracts_pairwise (l : List String) :
    (sortContracts l).Pairwise (fun x y => contractLe x y = true) := by
  induction l with
  | nil => simp [sortContracts]
  | cons a t ih => exact insertContract_pairwise a (sortContracts t) ih

theorem map_getD_range {α : Type} (l : List α) (d : α) :
    (List.range l.length).map (fun i => l.getD i d) = l := by
  induction l with
  | nil => rfl
  | cons a t ih =>
    rw [List.length_cons, List.range_succ_eq_map, List.map_cons, List.map_map]
    refine congrArg₂ List.cons rfl ?_
    have hcong : List.map ((fun i => (a :: t).getD i d) ∘ Nat.succ) (List.range t.length)
        = List.map (fun i => t.getD i d) (List.range t.length) := by
      apply List.map_congr_left
      intro i _
      simp [Function.comp]
    rw [hcong, ih]

/-- C8: for every multi-contract request, the streamed per-contract
responses follow the ascending sorted order of contract names, whatever
order the contracts arrived in and whatever order the per-contract worker
reads complete in (`schedule` ranges over all permutations of the job
indices); the fan-out worker pool is bounded at 64. -/
theorem C8_multiContracts_sorted_stream {α : Type} (contracts : List String)
    (readContract : String → α) (schedule : List Nat)
    (hperm : schedule.Perm (List.range (sortContracts contracts).length)) :
    GetMultiContractsTableRows contracts readContract schedule
        = (sortContracts contracts).map readContract
      ∧ (sortContracts contracts).Pairwise (fun x y => contractLe x y = true)
      ∧ (sortContracts contracts).Perm contracts
      ∧ nailerConcurrency = 64 := by
  refine ⟨?_, sortContracts_pairwise contracts, sortContracts_perm contracts, rfl⟩
  show (nailerOutput (sortContracts contracts).length schedule).map
      (fun i => ((sortContracts contracts).map readContract).getD i (readContract ""))
    = (sortContracts contracts).map readContract
  rw [nailerOutput_complete _ schedule hperm]
  have h := map_getD_range ((sortContracts contracts).map readContract) (readContract "")
  rw [List.length_map] at h
  exact h

theorem C8_multiContracts_sorted_stream_witness :
    ([2, 0, 1] : List Nat).Perm
      (List.range (sortContracts ["b", "a", "c"]).length)
    ∧ GetMultiContractsTableRows ["b", "a", "c"] (fun s => s) [2, 0, 1]
        = (sortContracts ["b", "a", "c"]).map (fun s => s) :=
  ⟨by decide,
   (C8_multiContracts_sorted_stream ["b", "a", "c"] (fun s => s) [2, 0, 1]
     (by decide)).1⟩
